import Mathlib

/-!
# TDBuilder — shallow embedding and verification

A shallow embedding of the TDBuilder build engine (`src/Builder.ts`,
`src/FSUtil.ts`).  The embedding models:

* mtimes as the extended integers (JS numbers `-Infinity`, finite
  milliseconds, `+Infinity`);
* the filesystem as a finite map from target names to trees of nodes,
  each node carrying an optional own mtime (`Deno.FileInfo.mtime` may be
  absent) plus a `now` clock used by `touchDir`;
* JS exception values as records carrying `name`, `message` and the
  optional `tdBuildTrace` string array (present exactly on the engine's
  `BuildError`s);
* build rules as in `BuildRule`, with user build callables
  (`invoke`) as filesystem transformers that may fail, and the
  `buildFunctionTransformer` hook as a higher-order function on those.
  Rules given as external command vectors (`cmd`) spawn OS processes and
  are outside the filesystem model, so the `cmd` field is not carried;
  `getRuleBuildFunction` on the modelled fragment is `rule.invoke`.
* the promise machinery as a deterministic state-passing interpreter:
  the memo table `buildPromises` holds `pending` (an unsettled promise)
  or `done o` (a settled one); awaiting an in-flight promise from inside
  its own computation (a dependency cycle) never settles, modelled by
  the `hang` outcome, as is running out of recursion fuel.  Concurrent
  interleavings of the single-threaded event loop are linearized:
  `Promise.all` in parallel `buildAll` is modelled by running the
  sub-builds in list order and then combining the settled outcomes.
  Callable invocations are counted at the engine's (single) application
  of the transformed build body.
-/

namespace TDB

abbrev TargetName := String

/-- JS numbers as used for mtimes: `-Infinity`, finite milliseconds, `+Infinity`. -/
inductive Mtime where
  | negInf : Mtime
  | fin : Int → Mtime
  | posInf : Mtime
deriving DecidableEq, Repr

/-- Strict order on mtimes (JS `<` on these numbers). -/
def Mtime.blt : Mtime → Mtime → Bool
  | .negInf, .negInf => false
  | .negInf, _ => true
  | .fin _, .negInf => false
  | .fin a, .fin b => decide (a < b)
  | .fin _, .posInf => true
  | .posInf, _ => false

/-- JS `Math.max` on two mtimes. -/
def Mtime.jmax (a b : Mtime) : Mtime := if a.blt b then b else a

/-- A JS exception value: its `name`, `message`, and the `tdBuildTrace`
field that the engine's `BuildError` carries (`none` on other errors;
cf. `hasBuildTrace` in `src/Builder.ts`). -/
structure JsError where
  name : String
  message : String
  tdBuildTrace : Option (List String)
deriving DecidableEq, Repr

/-- `new BuildError(message, trace)` (`src/Builder.ts`). -/
def mkBuildError (message : String) (trace : List String) : JsError :=
  { name := "Error", message := message, tdBuildTrace := some trace }

/-- A Deno `NotFound` error for a path. -/
def notFoundError (path : String) : JsError :=
  { name := "NotFound", message := "No such file or directory: " ++ path, tdBuildTrace := none }

/- A filesystem node: a regular file or a directory with named entries.
`Deno.FileInfo.mtime` is nullable, hence `Option Int` for the node's own
mtime. -/
mutual
inductive FSNode where
  | file : Option Int → FSNode
  | dir : Option Int → FSEntries → FSNode
inductive FSEntries where
  | nil : FSEntries
  | cons : String → FSNode → FSEntries → FSEntries
end

/-- The filesystem: a map from target name (path) to node, plus the
current clock used when the engine itself writes (`touchDir`). -/
structure FS where
  now : Int
  root : List (TargetName × FSNode)

/-- Association-list lookup (first binding wins, like a JS object). -/
def lookupA {α : Type} : List (String × α) → String → Option α
  | [], _ => none
  | (k, v) :: rest, key => if k = key then some v else lookupA rest key

/-- Replace the value bound to `key`, keeping its position, or append
a new binding — JS `obj[key] = v` insertion-order semantics. -/
def upsertA {α : Type} : List (String × α) → String → α → List (String × α)
  | [], key, v => [(key, v)]
  | (k, w) :: rest, key, v =>
    if k = key then (k, v) :: rest else (k, w) :: upsertA rest key v

/-- Remove the binding for `key`, if any. -/
def eraseA {α : Type} : List (String × α) → String → List (String × α)
  | [], _ => []
  | (k, w) :: rest, key => if k = key then rest else (k, w) :: eraseA rest key

def FS.stat (fs : FS) (path : TargetName) : Option FSNode :=
  lookupA fs.root path

def FSNode.ownMtime : FSNode → Option Int
  | .file m => m
  | .dir m _ => m

/-- A node's own mtime as a JS number: `stat.mtime?.getTime() ?? -Infinity`. -/
def FSNode.ownMtimeJs (n : FSNode) : Mtime :=
  match n.ownMtime with
  | none => .negInf
  | some t => .fin t

/- The recursive part of `mtimeR` (`src/FSUtil.ts`): starting from the
node's own mtime, short-circuit to `+Infinity` when the running value
exceeds `returnInfinityIfGtThis`, else take the max over all directory
entries of their recursively computed mtimes. -/
mutual
def mtimeRNode (cutoff : Mtime) : FSNode → Mtime
  | .file m =>
    let latest := FSNode.ownMtimeJs (.file m)
    if cutoff.blt latest then .posInf else latest
  | .dir m es =>
    let latest := FSNode.ownMtimeJs (.dir m es)
    if cutoff.blt latest then .posInf else mtimeREntries cutoff latest es
def mtimeREntries (cutoff : Mtime) (latest : Mtime) : FSEntries → Mtime
  | .nil => latest
  | .cons _ n rest => mtimeREntries cutoff (latest.jmax (mtimeRNode cutoff n)) rest
end

/-- `mtimeR(path, onNotFound, returnInfinityIfGtThis)` from
`src/FSUtil.ts`.  `onNotFound = none` models the `"error"` policy;
`some v` is the numeric sentinel. -/
def mtimeR (fs : FS) (path : TargetName) (onNotFound : Option Mtime)
    (cutoff : Mtime) : Except JsError Mtime :=
  match fs.stat path with
  | none =>
    match onNotFound with
    | some v => .ok v
    | none => .error (notFoundError path)
  | some node => .ok (mtimeRNode cutoff node)

/-- `Deno.remove(path, {recursive})`: fails with `NotFound` on a missing
path, refuses to remove a non-empty directory non-recursively. -/
def denoRemove (fs : FS) (path : TargetName) (recursive : Bool) :
    Except JsError FS :=
  match fs.stat path with
  | none => .error (notFoundError path)
  | some (.file _) => .ok { fs with root := eraseA fs.root path }
  | some (.dir _ es) =>
    match recursive, es with
    | true, _ => .ok { fs with root := eraseA fs.root path }
    | false, .nil => .ok { fs with root := eraseA fs.root path }
    | false, .cons _ _ _ =>
      .error { name := "Error", message := "directory not empty: " ++ path,
               tdBuildTrace := none }

/-- `makeRemoved` (`src/FSUtil.ts`): remove, tolerating a missing path
(`NotFound` is fine), re-raising any other removal error. -/
def makeRemoved (fs : FS) (path : TargetName) (recursive : Bool) :
    Except JsError FS :=
  match denoRemove fs path recursive with
  | .ok fs' => .ok fs'
  | .error e => if e.name = "NotFound" then .ok fs else .error e

/-- `touchDir` (`src/FSUtil.ts`): refresh a directory's mtime by writing
and deleting a placeholder file inside it.  Net effect on the model: set
the directory's own mtime to the clock; writing inside a missing or
non-directory path fails. -/
def touchDir (fs : FS) (path : TargetName) : Except JsError FS :=
  match fs.stat path with
  | none => .error (notFoundError path)
  | some (.file _) =>
    .error { name := "Error", message := "not a directory: " ++ path,
             tdBuildTrace := none }
  | some (.dir _ es) =>
    .ok { fs with root := upsertA fs.root path (.dir (some fs.now) es) }

/-! ## Rules and builder configuration (`src/Builder.ts`) -/

inductive TargetTypeName where
  | directory | file | phony | auto
deriving DecidableEq, Repr

/-- A user build callable (`BuildFunction`): transforms the filesystem
and optionally throws.  (The real callable receives a `BuildContext`;
the observable effect modelled here is its action on the filesystem.) -/
def BuildFunction : Type := FS → FS × Option JsError

/-- `BuildFunctionTransformer`. -/
def BuildFunctionTransformer : Type := BuildFunction → BuildFunction

/-- `BuildRule` (`src/Builder.ts`).  The `cmd` command-vector
alternative spawns an external process, outside the filesystem model,
and is not carried (see the module comment); `prereqs` iterables are
modelled drained into a list. -/
structure BuildRule where
  description : Option String := none
  prereqs : List TargetName := []
  invoke : Option BuildFunction := none
  buildFunctionTransformer : Option BuildFunctionTransformer := none
  keepOnFailure : Option Bool := none
  targetType : Option TargetTypeName := none
  isDirectory : Option Bool := none

inductive ConcurrencyMode where
  | parallel | serial
deriving DecidableEq, Repr

/-- `BuilderOptions` plus the overridable `fetchGeneratedTargets` hook:
the mapping that hook resolves to is `generatedTargets`. -/
structure BuilderConfig where
  rules : List (TargetName × BuildRule) := []
  globalPrereqs : List TargetName := []
  defaultTargetNames : List TargetName := []
  buildScriptName : String := "(build script)"
  concurrencyMode : ConcurrencyMode := .parallel
  generatedTargets : List (TargetName × BuildRule) := []

/-- One entry of the `buildPromises` memo table: an unsettled promise,
or a settled one with its outcome. -/
inductive MemoEntry (α : Type) where
  | pending : MemoEntry α
  | done : α → MemoEntry α

/-- Mutable builder state threaded through the interpreter.  `runLog`
records targets whose (transformed) build body was executed — the
stale branch of `buildTarget`; `invokeLog` records those where a build
callable existed and was scheduled to run.  `genFetchCount` counts
invocations of the `fetchGeneratedTargets` hook.  `allTargetsPromise`
is the cache field of the same name (which the source never assigns). -/
structure BuildResult where
  mtime : Mtime
deriving DecidableEq, Repr

inductive BuildOutcome where
  | ok : BuildResult → BuildOutcome
  | err : JsError → BuildOutcome
  | hang : BuildOutcome
deriving DecidableEq, Repr

structure BuilderState where
  fs : FS
  memo : List (TargetName × MemoEntry BuildOutcome) := []
  runLog : List TargetName := []
  invokeLog : List TargetName := []
  genFetchCount : Nat := 0
  allTargetsPromise : Option (List (TargetName × BuildRule)) := none

def initState (fs : FS) : BuilderState :=
  { fs := fs }

/-- `fetchAllBuildRules`: return the cache if `allTargetsPromise` is
set; otherwise copy the static rules, await `fetchGeneratedTargets`
(counted), and let generated entries overwrite static ones.  Faithful
to the source, the result is *not* stored back into
`allTargetsPromise`. -/
def fetchAllBuildRules (cfg : BuilderConfig) (st : BuilderState) :
    List (TargetName × BuildRule) × BuilderState :=
  match st.allTargetsPromise with
  | some m => (m, st)
  | none =>
    let allTargets := cfg.generatedTargets.foldl
      (fun acc kv => upsertA acc kv.1 kv.2) cfg.rules
    (allTargets, { st with genFetchCount := st.genFetchCount + 1 })

/-- `fetchBuildRuleForTarget`. -/
def fetchBuildRuleForTarget (cfg : BuilderConfig) (st : BuilderState)
    (targetName : TargetName) : Option BuildRule × BuilderState :=
  let p := fetchAllBuildRules cfg st
  (lookupA p.1 targetName, p.2)

/-- `getRuleTargetType`: reject rules that set both `isDirectory` and
`targetType`; otherwise `targetType`, defaulting to `auto`. -/
def getRuleTargetType (rule : BuildRule) (targetName : TargetName)
    (trace : List String) : Except JsError TargetTypeName :=
  if rule.isDirectory ≠ none ∧ rule.targetType ≠ none then
    .error (mkBuildError
      ("Rule for target '" ++ targetName ++ "' specifies both isDirectory and targetType")
      trace)
  else
    match rule.targetType with
    | some tt => .ok tt
    | none => .ok .auto

inductive FailureFileAction where
  | delete | keep
deriving DecidableEq, Repr

/-- `getFailureFileAction`: explicit `keepOnFailure` decides; otherwise
delete exactly when the rule's `targetType` is `file`. -/
def getFailureFileAction (rule : BuildRule) : FailureFileAction :=
  match rule.keepOnFailure with
  | some b => if b then .keep else .delete
  | none => if rule.targetType = some .file then .delete else .keep

/-- `verifyTarget`: a `file` target must stat as a regular file, a
`directory` target as a directory; `phony`/`auto` need no check. -/
def verifyTarget (fs : FS) (targetName : TargetName) (tt : TargetTypeName)
    (trace : List String) : Option JsError :=
  match tt with
  | .file =>
    match fs.stat targetName with
    | some (.file _) => none
    | some (.dir _ _) =>
      some (mkBuildError
        ("Target '" ++ targetName ++ "' should be a regular file, but is not") trace)
    | none =>
      some (mkBuildError
        ("Target '" ++ targetName ++ "' should be a regular file, but did not exist after building")
        trace)
  | .directory =>
    match fs.stat targetName with
    | some (.dir _ _) => none
    | some (.file _) =>
      some (mkBuildError
        ("Target '" ++ targetName ++ "' should be a directory, but is not") trace)
    | none =>
      some (mkBuildError
        ("Target '" ++ targetName ++ "' should be a directory, but did not exist after building")
        trace)
  | _ => none

/-- `postProcessTarget`: touch directories, do nothing otherwise. -/
def postProcessTarget (fs : FS) (targetName : TargetName)
    (tt : TargetTypeName) : FS × Option JsError :=
  match tt with
  | .directory =>
    match touchDir fs targetName with
    | .ok fs' => (fs', none)
    | .error e => (fs, some e)
  | _ => (fs, none)

/-- `deduplicate` (`src/Builder.ts`): keep the first occurrence of each
element, tracking what was already mentioned. -/
def dedupGo (alreadyMentioned : List TargetName) :
    List TargetName → List TargetName
  | [] => []
  | x :: rest =>
    if x ∈ alreadyMentioned then dedupGo alreadyMentioned rest
    else x :: dedupGo (x :: alreadyMentioned) rest

def deduplicate (stuff : List TargetName) : List TargetName :=
  dedupGo [] stuff

/-! ## The build interpreter -/

/-- The current target mtime read at the top of `buildTarget`:
`-Infinity` for phony targets, else `mtimeR(targetName, -Infinity)`
with the `NotFound → -Infinity` catch. -/
def readTargetMtime (fs : FS) (targetName : TargetName)
    (tt : TargetTypeName) : Except JsError Mtime :=
  if tt = .phony then .ok .negInf
  else
    match mtimeR fs targetName (some .negInf) .posInf with
    | .ok v => .ok v
    | .error e => if e.name = "NotFound" then .ok .negInf else .error e

/-- `getRuleBuildFunctionTransformer`: the rule's transformer, else the
identity. -/
def getRuleBuildFunctionTransformer (rule : BuildRule) :
    BuildFunctionTransformer :=
  match rule.buildFunctionTransformer with
  | some tr => tr
  | none => fun bf => bf

/-- The tail of the wrapped build body: verify the artifact against the
declared target type, then post-process. -/
def buildAfter (targetName : TargetName) (tt : TargetTypeName)
    (trace : List String) : BuildFunction := fun fs =>
  match verifyTarget fs targetName tt trace with
  | some e => (fs, some e)
  | none => postProcessTarget fs targetName tt

/-- The body handed to the rule's transformer in `buildTarget`: run the
build callable if any (on failure apply the failure-file policy, then
re-raise), else fall through; then verify and post-process. -/
def buildInnerBody (rule : BuildRule) (targetName : TargetName)
    (tt : TargetTypeName) (trace : List String) : BuildFunction := fun fs =>
  match rule.invoke with
  | some bf =>
    match bf fs with
    | (fs1, some e) =>
      match getFailureFileAction rule with
      | .delete =>
        match makeRemoved fs1 targetName true with
        | .ok fs2 => (fs2, some e)
        | .error e2 => (fs1, some e2)
      | .keep => (fs1, some e)
    | (fs1, none) => buildAfter targetName tt trace fs1
  | none => buildAfter targetName tt trace fs

/-- The stale branch of `buildTarget`: record the run, obtain the build
callable and the transformer, execute the wrapped body, then re-read
the target mtime (`+Infinity` for phony). -/
def buildTargetRun (targetName : TargetName) (rule : BuildRule)
    (tt : TargetTypeName) (trace : List String) (st : BuilderState) :
    BuildOutcome × BuilderState :=
  let st2 := { st with runLog := st.runLog ++ [targetName] }
  let st3 :=
    match rule.invoke with
    | some _ => { st2 with invokeLog := st2.invokeLog ++ [targetName] }
    | none => st2
  let wrapped := getRuleBuildFunctionTransformer rule
    (buildInnerBody rule targetName tt trace)
  match wrapped st3.fs with
  | (fs', some e) => (.err e, { st3 with fs := fs' })
  | (fs', none) =>
    match
      (if tt = .phony then Except.ok Mtime.posInf
       else mtimeR fs' targetName (some .negInf) .posInf) with
    | .ok m => (.ok ⟨m⟩, { st3 with fs := fs' })
    | .error e => (.err e, { st3 with fs := fs' })

/-- `buildTarget`, parametric in the aggregator used for prerequisites
(`bAll` will be `buildAll` over `build` at one less fuel).  Explicit
prereqs come first, then the global prereqs; the trace is extended with
the target; the run-or-skip decision compares the target's current
mtime with the prereqs' aggregate mtime. -/
def buildTargetWith (cfg : BuilderConfig)
    (bAll : List TargetName → List String → BuilderState →
      BuildOutcome × BuilderState)
    (targetName : TargetName) (rule : BuildRule)
    (parentTrace : List String) (st : BuilderState) :
    BuildOutcome × BuilderState :=
  let prereqNames := rule.prereqs ++ cfg.globalPrereqs
  let buildRuleTrace := parentTrace ++ [targetName]
  match getRuleTargetType rule targetName buildRuleTrace with
  | .error e => (.err e, st)
  | .ok tt =>
    match readTargetMtime st.fs targetName tt with
    | .error e => (.err e, st)
    | .ok targetMtime =>
      match bAll prereqNames buildRuleTrace st with
      | (.hang, st1) => (.hang, st1)
      | (.err e, st1) => (.err e, st1)
      | (.ok latest, st1) =>
        if targetMtime = Mtime.negInf ∨ Mtime.blt targetMtime latest.mtime = true
        then buildTargetRun targetName rule tt buildRuleTrace st1
        else (.ok ⟨targetMtime⟩, st1)

/-- Serial `buildAll`: a promise chain that builds one name at a time,
accumulating the max mtime; once it rejects (or never settles), the
remaining names are not built. -/
def buildAllSerial
    (bf : TargetName → List String → BuilderState →
      BuildOutcome × BuilderState)
    (trace : List String) (acc : Mtime) :
    List TargetName → BuilderState → BuildOutcome × BuilderState
  | [], st => (.ok ⟨acc⟩, st)
  | n :: rest, st =>
    match bf n trace st with
    | (.ok r, st') => buildAllSerial bf trace (acc.jmax r.mtime) rest st'
    | (.err e, st') => (.err e, st')
    | (.hang, st') => (.hang, st')

/-- Parallel `buildAll`, launch phase: `build` is requested for every
name (in list order — `map` runs synchronously), whatever the earlier
outcomes. -/
def buildAllLaunch
    (bf : TargetName → List String → BuilderState →
      BuildOutcome × BuilderState)
    (trace : List String) :
    List TargetName → BuilderState → List BuildOutcome × BuilderState
  | [], st => ([], st)
  | n :: rest, st =>
    let p := bf n trace st
    let q := buildAllLaunch bf trace rest p.2
    (p.1 :: q.1, q.2)

def firstErr : List BuildOutcome → Option JsError
  | [] => none
  | .err e :: _ => some e
  | _ :: rest => firstErr rest

def anyHang : List BuildOutcome → Bool
  | [] => false
  | .hang :: _ => true
  | _ :: rest => anyHang rest

def maxOkMtime : List BuildOutcome → Mtime → Mtime
  | [], acc => acc
  | .ok r :: rest, acc => maxOkMtime rest (acc.jmax r.mtime)
  | _ :: rest, acc => maxOkMtime rest acc

/-- `Promise.all(...).then(results => results.reduce(max, {mtime:-∞}))`:
rejects if any sub-promise rejects (first rejection), never settles if
none rejects but some never settles, else resolves to the max. -/
def promiseAll (outs : List BuildOutcome) : BuildOutcome :=
  match firstErr outs with
  | some e => .err e
  | none =>
    if anyHang outs then .hang else .ok ⟨maxOkMtime outs .negInf⟩

/-- `buildAll`, parametric in the per-target build function: deduplicate
the names, then aggregate serially or in parallel. -/
def buildAllWith (mode : ConcurrencyMode)
    (bf : TargetName → List String → BuilderState →
      BuildOutcome × BuilderState)
    (targetNames : List TargetName) (trace : List String)
    (st : BuilderState) : BuildOutcome × BuilderState :=
  let names := deduplicate targetNames
  match mode with
  | .serial => buildAllSerial bf trace .negInf names st
  | .parallel =>
    let p := buildAllLaunch bf trace names st
    (promiseAll p.1, p.2)

/-- `build` (`src/Builder.ts`, lines 398–417): a memo-table hit returns
the existing promise (a settled one returns its outcome, an in-flight
one is awaited — a self-dependency thus never settles); otherwise the
promise is stored synchronously, the rule is fetched, and a missing
rule falls back to `mtimeR(name, "error")`, else to `buildTarget`.  The
settled outcome replaces the pending entry.  `fuel` bounds the
recursion depth; exhaustion means the run never settles. -/
def build (cfg : BuilderConfig) :
    Nat → TargetName → List String → BuilderState →
    BuildOutcome × BuilderState
  | 0, _, _, st => (.hang, st)
  | fuel + 1, targetName, ctxTrace, st =>
    match lookupA st.memo targetName with
    | some (.done o) => (o, st)
    | some .pending => (.hang, st)
    | none =>
      let st1 := { st with memo := st.memo ++ [(targetName, .pending)] }
      let pr := fetchBuildRuleForTarget cfg st1 targetName
      let res :=
        match pr.1 with
        | none =>
          match mtimeR pr.2.fs targetName none .posInf with
          | .ok m => (BuildOutcome.ok ⟨m⟩, pr.2)
          | .error _ =>
            (BuildOutcome.err (mkBuildError
              (targetName ++ " does not exist and I don't know how to build it.")
              ctxTrace), pr.2)
        | some rule =>
          buildTargetWith cfg
            (buildAllWith cfg.concurrencyMode (build cfg fuel))
            targetName rule ctxTrace pr.2
      (res.1, { res.2 with memo := upsertA res.2.memo targetName (.done res.1) })

/-- Public `buildAll` at a given fuel. -/
def buildAll (cfg : BuilderConfig) (fuel : Nat)
    (targetNames : List TargetName) (trace : List String)
    (st : BuilderState) : BuildOutcome × BuilderState :=
  buildAllWith cfg.concurrencyMode (build cfg fuel) targetNames trace st

/-- A request made of a Builder over its lifetime. -/
inductive Req where
  | rBuild : TargetName → List String → Req
  | rBuildAll : List TargetName → List String → Req

def runRequest (cfg : BuilderConfig) (fuel : Nat) (st : BuilderState) :
    Req → BuilderState
  | .rBuild t tr => (build cfg fuel t tr st).2
  | .rBuildAll ns tr => (buildAll cfg fuel ns tr st).2

/-- Run a sequence of requests against one Builder. -/
def runRequests (cfg : BuilderConfig) (fuel : Nat) :
    List Req → BuilderState → BuilderState
  | [], st => st
  | r :: rest, st => runRequests cfg fuel rest (runRequest cfg fuel st r)

/-! ## Command-line processing (`src/Builder.ts`, `parseCommandLineArgs`,
`run`, `runResultToCommandLineResult`, `processCommandLine`) -/

def VERBOSITY_SILENT : Nat := 0
def VERBOSITY_ERRORS : Nat := 50
def VERBOSITY_WARNINGS : Nat := 100
def VERBOSITY_INFO : Nat := 200
def VERBOSITY_DEBUG : Nat := 300

inductive BuildOperationName where
  | build | describeTargets | listTargets | printHelp
deriving DecidableEq, Repr

structure BuildParameters where
  buildOperation : BuildOperationName
  targetNames : List TargetName
  targetsSpecifiedVia : String
  verbosity : Nat
  concurrencyMode : ConcurrencyMode
deriving Repr

def startsWithChars : List Char → List Char → Bool
  | [], _ => true
  | _ :: _, [] => false
  | p :: ps, c :: cs => p = c && startsWithChars ps cs

def digitsToNat (ds : List Char) : Nat :=
  ds.foldl (fun n c => n * 10 + (c.toNat - 48)) 0

/-- The source's regex test on `--verbosity=(\d+)$`, via `exec(arg)`:
an (unanchored) occurrence of the literal `--verbosity=` followed by
one or more digits running to the end of the argument. -/
def verbosityMatchGo : List Char → Option Nat
  | [] => none
  | c :: rest =>
    if startsWithChars ("--verbosity=".toList) (c :: rest) then
      let ds := (c :: rest).drop 12
      if ds ≠ [] ∧ ds.all Char.isDigit then some (digitsToNat ds)
      else verbosityMatchGo rest
    else verbosityMatchGo rest

def parseVerbosityArg (arg : String) : Option Nat :=
  verbosityMatchGo arg.toList

/-- `arg.replace(/\\/g,'/')`: normalize backslashes to forward
slashes. -/
def normalizeSlashes (arg : String) : String :=
  String.mk (arg.toList.map (fun c => if c = '\\' then '/' else c))

structure ParseAcc where
  targetNames : List TargetName
  buildOperation : BuildOperationName
  targetsSpecifiedVia : String
  verbosity : Nat
  concurrencyMode : ConcurrencyMode

def parseArgsGo (acc : ParseAcc) : List String → Except JsError ParseAcc
  | [] => .ok acc
  | arg :: rest =>
    if arg = "--list-targets" then
      parseArgsGo { acc with buildOperation := .listTargets } rest
    else if arg = "--describe-targets" then
      parseArgsGo { acc with buildOperation := .describeTargets } rest
    else if arg = "--help" then
      parseArgsGo { acc with buildOperation := .printHelp } rest
    else if arg = "--serial" then
      parseArgsGo { acc with concurrencyMode := .serial } rest
    else if arg = "--parallel" then
      parseArgsGo { acc with concurrencyMode := .parallel } rest
    else if arg = "-v" then
      parseArgsGo { acc with verbosity := VERBOSITY_INFO } rest
    else if arg = "-q" then
      parseArgsGo { acc with verbosity := VERBOSITY_ERRORS } rest
    else
      match parseVerbosityArg arg with
      | some n => parseArgsGo { acc with verbosity := n } rest
      | none =>
        if startsWithChars ("-".toList) arg.toList then
          .error { name := "Error",
                   message := "Unrecognized argument: " ++ arg,
                   tdBuildTrace := none }
        else
          parseArgsGo
            { acc with targetNames := acc.targetNames ++ [normalizeSlashes arg] }
            rest

/-- `parseCommandLineArgs`: a rejected result models the rejected
promise.  When no target names were given, fall back to the configured
defaults. -/
def parseCommandLineArgs (cfg : BuilderConfig) (args : List String) :
    Except JsError BuildParameters :=
  match parseArgsGo
      { targetNames := [], buildOperation := .build,
        targetsSpecifiedVia := "command-line",
        verbosity := VERBOSITY_WARNINGS,
        concurrencyMode := cfg.concurrencyMode } args with
  | .error e => .error e
  | .ok acc =>
    let targetNames := acc.targetNames
    let p : List TargetName × String :=
      if targetNames.length = 0 then
        (cfg.defaultTargetNames, "(default targets)")
      else (targetNames, acc.targetsSpecifiedVia)
    .ok { buildOperation := acc.buildOperation,
          targetNames := p.1,
          targetsSpecifiedVia := p.2,
          verbosity := acc.verbosity,
          concurrencyMode := acc.concurrencyMode }

/-- Outcome of `run`'s void promise. -/
inductive RunOutcome where
  | ok : RunOutcome
  | err : JsError → RunOutcome
  | hang : RunOutcome
deriving Repr

/-- `run`: apply the serial-lock rule to the requested concurrency mode
(a serial-configured builder refuses `--parallel`), then dispatch on the
operation.  Listing and describing materialize the rule set and print;
building with no names warns and succeeds; otherwise `buildAll` runs
under the effective mode.  (Console output and logger filtering carry
no information for the claims and are dropped.) -/
def run (cfg : BuilderConfig) (fuel : Nat) (params : BuildParameters)
    (st : BuilderState) : RunOutcome × BuilderState :=
  let effMode :=
    if cfg.concurrencyMode = .serial ∧ params.concurrencyMode = .parallel
    then ConcurrencyMode.serial else params.concurrencyMode
  let cfg' := { cfg with concurrencyMode := effMode }
  match params.buildOperation with
  | .listTargets =>
    let p := fetchAllBuildRules cfg st
    (.ok, p.2)
  | .describeTargets =>
    let p := fetchAllBuildRules cfg st
    (.ok, p.2)
  | .printHelp => (.ok, st)
  | .build =>
    if params.targetNames.length = 0 then (.ok, st)
    else
      match buildAll cfg' fuel params.targetNames
          [params.targetsSpecifiedVia] st with
      | (.ok _, st') => (.ok, st')
      | (.err e, st') => (.err e, st')
      | (.hang, st') => (.hang, st')

/-- The settled value of `processCommandLine`'s promise: resolved with
an exit code, rejected with an error, or never settling. -/
inductive CliOutcome where
  | resolved : Nat → CliOutcome
  | rejected : JsError → CliOutcome
  | hang : CliOutcome
deriving DecidableEq, Repr

/-- `runResultToCommandLineResult`: 0 when `run`'s promise resolves,
1 when it rejects (after printing), always after `join()` (which never
rejects). -/
def runResultToCommandLineResult (res : RunOutcome) : CliOutcome :=
  match res with
  | .ok => .resolved 0
  | .err _ => .resolved 1
  | .hang => .hang

/-- `processCommandLine`: parse, then run and convert.  A parse failure
is *not* routed through `runResultToCommandLineResult`; it rejects the
returned promise. -/
def processCommandLine (cfg : BuilderConfig) (fuel : Nat)
    (args : List String) (st : BuilderState) : CliOutcome × BuilderState :=
  match parseCommandLineArgs cfg args with
  | .error e => (.rejected e, st)
  | .ok params =>
    let p := run cfg fuel params st
    (runResultToCommandLineResult p.1, p.2)

/-! ## The pluggable mtime function -/

/-- Modelled from the spec: the `AlternateMtimeFunction` type referenced
by `src/Builder.test.ts` is missing from `src/` (only the test imports
it).  Per §4.5 of the spec it maps a path to an optional mtime, where
`undefined` (`none`) means "no answer". -/
def AlternateMtimeFunction : Type := TargetName → Option Mtime

/-- Modelled from the spec: the `mtimeFunction` member of
`BuilderOptions` exercised by `src/Builder.test.ts` is missing from
`src/`; per §4.5 the engine accepts it as an optional alternate mtime
source. -/
structure BuilderOptionsWithMtime extends BuilderConfig where
  mtimeFunction : Option AlternateMtimeFunction := none

/-- Modelled from the spec: the effective-mtime computation of the
Freshness Oracle — consult the alternate mtime function first and fall
back to the filesystem oracle `mtimeR` when it yields `undefined` (or
when none is configured). -/
def effectiveMtime (opts : BuilderOptionsWithMtime) (fs : FS)
    (path : TargetName) (onNotFound : Option Mtime) (cutoff : Mtime) :
    Except JsError Mtime :=
  match opts.mtimeFunction with
  | none => mtimeR fs path onNotFound cutoff
  | some alt =>
    match alt path with
    | some v => .ok v
    | none => mtimeR fs path onNotFound cutoff

/-! ## Derived notions used by the theorems -/

def memoLookup (st : BuilderState) (t : TargetName) :
    Option (MemoEntry BuildOutcome) :=
  lookupA st.memo t

/-- Whether a memo-table lookup found a settled, successful build. -/
def isDoneOk : Option (MemoEntry BuildOutcome) → Bool
  | some (.done (.ok _)) => true
  | _ => false

/-- The rule map all lookups resolve against when the
`allTargetsPromise` cache is unset (which, the source never assigning
it, is always): static rules overwritten by generated ones. -/
def mergedRules (cfg : BuilderConfig) : List (TargetName × BuildRule) :=
  cfg.generatedTargets.foldl (fun acc kv => upsertA acc kv.1 kv.2) cfg.rules

/-- The prerequisite list `buildTarget` composes for a target: the
rule's explicit prereqs, then the global prereqs (nothing for an
unruled target). -/
def prereqListOf (cfg : BuilderConfig) (t : TargetName) : List TargetName :=
  match lookupA (mergedRules cfg) t with
  | none => []
  | some rule => rule.prereqs ++ cfg.globalPrereqs

/-- `p` is a transitive prerequisite of `t` under `cfg`'s rules. -/
inductive TransPrereq (cfg : BuilderConfig) : TargetName → TargetName → Prop
  | direct (p t : TargetName) : p ∈ prereqListOf cfg t → TransPrereq cfg p t
  | step (p q t : TargetName) : TransPrereq cfg q t →
      p ∈ prereqListOf cfg q → TransPrereq cfg p t

/-- First-occurrence deduplication, the canonical specification that
`deduplicate` is checked against. -/
def firstOccur : List TargetName → List TargetName
  | [] => []
  | x :: rest => x :: firstOccur (rest.filter (fun y => y != x))
termination_by l => l.length
decreasing_by
  simp only [List.length_cons]
  exact Nat.lt_succ_of_le (List.length_filter_le _ _)

/-- The build callable for `u` was scheduled at most once, and only
ever for targets that have an entry in the memo table. -/
def InvokeInv (st : BuilderState) : Prop :=
  ∀ u, List.count u st.invokeLog ≤ 1 ∧
    (1 ≤ List.count u st.invokeLog → memoLookup st u ≠ none)

/-- Every settled successful target has all of its prerequisites
settled successfully too. -/
def GoodMemo (cfg : BuilderConfig) (st : BuilderState) : Prop :=
  ∀ u r, memoLookup st u = some (.done (.ok r)) →
    ∀ p ∈ prereqListOf cfg u, isDoneOk (memoLookup st p) = true

/-- At most one memo-table entry (one build future) per target. -/
def NodupKeys (st : BuilderState) : Prop :=
  (st.memo.map Prod.fst).Nodup

/-- The reachable-state invariant: the rule-set cache is unset (the
source never assigns it), the memo table has one entry per target,
callables ran at most once, successful targets have successful
prerequisites. -/
def StInv (cfg : BuilderConfig) (st : BuilderState) : Prop :=
  st.allTargetsPromise = none ∧ NodupKeys st ∧ InvokeInv st ∧
    GoodMemo cfg st

/-- Existing memo entries keep their exact value: settled promises stay
settled with the same outcome, in-flight ones stay the same promise. -/
def MemoExtends (st st' : BuilderState) : Prop :=
  ∀ u v, memoLookup st u = some v → memoLookup st' u = some v

/-- The properties of a per-target build function that the fuel
induction carries. -/
structure BFOk (cfg : BuilderConfig)
    (bf : TargetName → List String → BuilderState →
      BuildOutcome × BuilderState) : Prop where
  atp : ∀ t tr st, (bf t tr st).2.allTargetsPromise = st.allTargetsPromise
  ext : ∀ t tr st, MemoExtends st (bf t tr st).2
  okMemo : ∀ t tr st r, (bf t tr st).1 = .ok r →
    memoLookup (bf t tr st).2 t = some (.done (.ok r))
  noReinvoke : ∀ t tr st u, memoLookup st u ≠ none →
    List.count u (bf t tr st).2.invokeLog = List.count u st.invokeLog
  pres : ∀ t tr st, StInv cfg st → StInv cfg (bf t tr st).2

/-! ## Concrete fixtures used by witnesses and counterexamples -/

/-- Two existing files with trivial rules. -/
def fsTwo : FS := { now := 0, root := [("a", .file (some 5)), ("b", .file (some 7))] }

def cfgTwo : BuilderConfig := { rules := [("a", {}), ("b", {})] }

def altNoAnswer : AlternateMtimeFunction := fun _ => none

def optsAlt : BuilderOptionsWithMtime := { mtimeFunction := some altNoAnswer }

def fsP : FS := { now := 0, root := [("p", .file (some 42))] }

/-- A file that exists but has no mtime. -/
def fsNoMtime : FS := { now := 0, root := [("x", .file none)] }

def ruleTouchX : BuildRule :=
  { invoke := some (fun fs => (fs, none)) }

/-- A build callable that writes `c` with mtime 50. -/
def writeC50 : BuildFunction := fun fs =>
  ({ fs with root := upsertA fs.root ("c") (.file (some 50)) }, none)

/-- `c` is built from `a`; `a` has no rule of its own. -/
def ruleCA : BuildRule := { prereqs := ["a"], invoke := some writeC50 }

def cfgCA : BuilderConfig := { rules := [("c", ruleCA)] }

/-- `a` and `c` both carry mtime 100: the equality (up-to-date) case. -/
def fsAC100 : FS :=
  { now := 0, root := [("a", .file (some 100)), ("c", .file (some 100))] }

/-- Only the prerequisite `a` exists, with mtime 100. -/
def fsA100 : FS := { now := 0, root := [("a", .file (some 100))] }

def bAllCA := buildAllWith ConcurrencyMode.parallel (build cfgCA 2)

def stAfterA := (bAllCA (["a"]) (["root", "c"]) (initState fsAC100)).2

def eBoom : JsError :=
  { name := "Error", message := "boom", tdBuildTrace := none }

/-- Writes a partial artifact at `w`, then throws. -/
def partialWriteW : BuildFunction := fun fs =>
  ({ fs with root := upsertA fs.root ("w") (.file (some 1)) }, some eBoom)

def ruleW7 : BuildRule :=
  { invoke := some partialWriteW, targetType := some .file }

def fsEmpty : FS := { now := 0, root := [] }

/-- The error the parser raises for the unrecognized argument `-x`. -/
def unrecX : JsError :=
  { name := "Error", message := "Unrecognized argument: -x",
    tdBuildTrace := none }

/-- What `parseCommandLineArgs` produces for `["--help"]` on a default
configuration. -/
def paramsHelp : BuildParameters :=
  { buildOperation := .printHelp, targetNames := [],
    targetsSpecifiedVia := "(default targets)",
    verbosity := VERBOSITY_WARNINGS, concurrencyMode := .parallel }

def bfTwo := build cfgTwo 2

def stParTwo :=
  (buildAllWith ConcurrencyMode.parallel bfTwo (["a", "b", "a"]) ["r"]
    (initState fsTwo)).2

/-- A build callable that throws a plain (non-BuildError) error. -/
def boomBF : BuildFunction := fun fs => (fs, some eBoom)

/-- `t` depends on `p`; building `p` throws the plain error. -/
def cfgTP : BuilderConfig :=
  { rules := [("t", { prereqs := ["p"] }), ("p", { invoke := some boomBF })] }

/-- The state after one `build c` request on the `c`-from-`a` Builder. -/
def stC8 : BuilderState :=
  runRequests cfgCA 3 [Req.rBuild ("c") []] (initState fsA100)

/-! ## Basic lemmas -/

theorem lookupA_append_of_some {α : Type} (l l' : List (String × α))
    (k : String) (v : α) (h : lookupA l k = some v) :
    lookupA (l ++ l') k = some v := by
  induction l with
  | nil => simp [lookupA] at h
  | cons hd tl ih =>
    simp only [lookupA, List.cons_append] at h ⊢
    by_cases hk : hd.1 = k
    · simpa [hk] using h
    · simp only [hk, if_false] at h ⊢
      exact ih h

theorem lookupA_append_of_none {α : Type} (l l' : List (String × α))
    (k : String) (h : lookupA l k = none) :
    lookupA (l ++ l') k = lookupA l' k := by
  induction l with
  | nil => simp
  | cons hd tl ih =>
    simp only [lookupA, List.cons_append] at h ⊢
    by_cases hk : hd.1 = k
    · simp [hk] at h
    · simp only [hk, if_false] at h ⊢
      exact ih h

theorem lookupA_upsertA_self {α : Type} (l : List (String × α))
    (k : String) (v : α) : lookupA (upsertA l k v) k = some v := by
  induction l with
  | nil => simp [upsertA, lookupA]
  | cons hd tl ih =>
    simp only [upsertA]
    by_cases hk : hd.1 = k
    · simp [lookupA, hk]
    · simp [lookupA, hk, ih]

theorem lookupA_upsertA_ne {α : Type} (l : List (String × α))
    (k k' : String) (v : α) (h : k' ≠ k) :
    lookupA (upsertA l k v) k' = lookupA l k' := by
  induction l with
  | nil => simp [upsertA, lookupA, Ne.symm h]
  | cons hd tl ih =>
    simp only [upsertA]
    by_cases hk : hd.1 = k
    · rw [if_pos hk]
      have hne : hd.1 ≠ k' := by rw [hk]; exact Ne.symm h
      simp [lookupA, hne]
    · rw [if_neg hk]
      by_cases hk' : hd.1 = k'
      · simp [lookupA, hk']
      · simp [lookupA, hk', ih]

theorem eraseA_of_lookupA_none {α : Type} (l : List (String × α))
    (k : String) (h : lookupA l k = none) : eraseA l k = l := by
  induction l with
  | nil => simp [eraseA]
  | cons hd tl ih =>
    simp only [lookupA] at h
    by_cases hk : hd.1 = k
    · simp [hk] at h
    · simp only [eraseA, hk, if_false]
      simp only [hk, if_false] at h
      rw [ih h]

theorem mtime_blt_irrefl (a : Mtime) : Mtime.blt a a = false := by
  cases a <;> simp [Mtime.blt]

theorem mtime_blt_posInf_false (a : Mtime) : Mtime.blt .posInf a = false := by
  cases a <;> simp [Mtime.blt]

theorem mtime_blt_asymm (a b : Mtime) (h : Mtime.blt a b = true) :
    Mtime.blt b a = false := by
  cases a <;> cases b <;> simp_all [Mtime.blt]
  omega

theorem mtime_blt_false_trans (a b c : Mtime)
    (hab : Mtime.blt a b = false) (hbc : Mtime.blt b c = false) :
    Mtime.blt a c = false := by
  cases a <;> cases b <;> cases c <;> simp_all [Mtime.blt]
  all_goals omega

theorem mtime_jmax_ge_left (a b : Mtime) :
    Mtime.blt (a.jmax b) a = false := by
  by_cases h : Mtime.blt a b = true
  · simp only [Mtime.jmax, h, if_pos]
    exact mtime_blt_asymm _ _ h
  · simp only [Mtime.jmax, h, if_false]
    exact mtime_blt_irrefl a

theorem mtime_jmax_ge_right (a b : Mtime) :
    Mtime.blt (a.jmax b) b = false := by
  by_cases h : Mtime.blt a b = true
  · simp only [Mtime.jmax, h, if_pos]
    exact mtime_blt_irrefl b
  · simp only [Mtime.jmax, h, if_false]
    exact Bool.not_eq_true _ ▸ eq_false_of_ne_true h

/-- `readTargetMtime` never fails: `mtimeR` with a numeric sentinel
cannot reject, and `NotFound` is caught. -/
theorem readTargetMtime_ok (fs : FS) (t : TargetName) (tt : TargetTypeName) :
    readTargetMtime fs t tt =
      .ok (if tt = .phony then .negInf
           else match fs.stat t with
                | none => .negInf
                | some node => mtimeRNode .posInf node) := by
  by_cases h : tt = .phony
  · simp [readTargetMtime, h]
  · simp only [readTargetMtime, h, if_false]
    cases hstat : fs.stat t <;> simp [mtimeR, hstat]

theorem getRuleTargetType_of_isDir_none (rule : BuildRule)
    (t : TargetName) (tr : List String) (h : rule.isDirectory = none) :
    getRuleTargetType rule t tr = .ok (rule.targetType.getD .auto) := by
  simp only [getRuleTargetType, h]
  cases htt : rule.targetType <;> simp [htt]

/-- `buildAll` of an empty name list resolves to `-Infinity` without
touching the state, in either mode. -/
theorem buildAllWith_nil (mode : ConcurrencyMode)
    (bf : TargetName → List String → BuilderState →
      BuildOutcome × BuilderState)
    (trace : List String) (st : BuilderState) :
    buildAllWith mode bf [] trace st = (.ok ⟨.negInf⟩, st) := by
  cases mode <;>
    simp [buildAllWith, deduplicate, dedupGo, buildAllSerial,
      buildAllLaunch, promiseAll, firstErr, anyHang, maxOkMtime]

/-- The stale branch records the run and otherwise only touches the
filesystem: its post-state's `runLog` is the pre-state's with the
target appended. -/
theorem buildTargetRun_runLog (targetName : TargetName) (rule : BuildRule)
    (tt : TargetTypeName) (trace : List String) (st : BuilderState) :
    (buildTargetRun targetName rule tt trace st).2.runLog =
      st.runLog ++ [targetName] := by
  cases hinv : rule.invoke <;>
    (simp only [buildTargetRun, hinv]
     split
     · rfl
     · split <;> rfl)


/-! ## Claim C4 -/

/-- **C4** — the claim says `fetchGeneratedTargets` is invoked at most
once per Builder, its result being cached in `allTargetsPromise`
forever after.  The code declares and checks `allTargetsPromise` but
never assigns it, so every materialization of the rule set re-invokes
the hook: two build requests on one Builder invoke it twice, and the
cache field is still unset afterwards.  (The claim is taken as the
intent — `code_bug` — since the cache field exists solely for this.) -/
theorem claim_C4 :
    (runRequests cfgTwo 2 [.rBuild ("a") ["r"], .rBuild ("b") ["r"]]
      (initState fsTwo)).genFetchCount = 2 ∧
    (runRequests cfgTwo 2 [.rBuild ("a") ["r"], .rBuild ("b") ["r"]]
      (initState fsTwo)).allTargetsPromise = none := by
  exact ⟨rfl, rfl⟩

/-! ## Claim C5 -/

/-- **C5** — the Builder options accept an optional alternate mtime
function (`mtimeFunction`, modelled from the spec since the member is
missing from `src/`, where only the test references it); whenever the
alternate function yields `undefined` for a path, the effective mtime
falls back to the filesystem oracle `mtimeR`. -/
theorem claim_C5 (opts : BuilderOptionsWithMtime)
    (alt : AlternateMtimeFunction) (fs : FS) (path : TargetName)
    (onf : Option Mtime) (cutoff : Mtime)
    (hone : opts.mtimeFunction = some alt) (hnone : alt path = none) :
    effectiveMtime opts fs path onf cutoff = mtimeR fs path onf cutoff := by
  simp [effectiveMtime, hone, hnone]

theorem claim_C5_witness :
    optsAlt.mtimeFunction = some altNoAnswer ∧
    altNoAnswer ("p") = none ∧
    effectiveMtime optsAlt fsP ("p") (some .negInf) .posInf =
      mtimeR fsP ("p") (some .negInf) .posInf ∧
    mtimeR fsP ("p") (some .negInf) .posInf = .ok (.fin 42) :=
  ⟨rfl, rfl,
   claim_C5 optsAlt altNoAnswer fsP ("p") (some .negInf) .posInf rfl rfl,
   rfl⟩

/-! ## Claim C10 -/

/-- **C10** — when a path's stat succeeds but carries no mtime, `mtimeR`
uses `-Infinity` for that node's own mtime; in particular a target
artifact that is a file with no readable mtime reports `-Infinity`, so
the engine takes it for never-built and runs the build body for it
(whatever the prerequisites' aggregate, here the empty list). -/
theorem claim_C10 (cfg : BuilderConfig) (mode : ConcurrencyMode)
    (bf : TargetName → List String → BuilderState →
      BuildOutcome × BuilderState)
    (t : TargetName) (rule : BuildRule) (tr : List String)
    (st : BuilderState)
    (hfs : st.fs.stat t = some (.file none))
    (hdir : rule.isDirectory = none)
    (hpre : rule.prereqs = [])
    (hglob : cfg.globalPrereqs = []) :
    (∀ onf, mtimeR st.fs t onf .posInf = .ok .negInf) ∧
    (buildTargetWith cfg (buildAllWith mode bf) t rule tr st).2.runLog =
      st.runLog ++ [t] := by
  have hnode : ∀ onf, mtimeR st.fs t onf .posInf = .ok .negInf := by
    intro onf
    simp [mtimeR, hfs, mtimeRNode, FSNode.ownMtimeJs, FSNode.ownMtime,
      Mtime.blt]
  refine ⟨hnode, ?_⟩
  have htm : readTargetMtime st.fs t (rule.targetType.getD .auto) =
      .ok .negInf := by
    rw [readTargetMtime_ok, hfs]
    simp [mtimeRNode, FSNode.ownMtimeJs, FSNode.ownMtime, Mtime.blt]
  simp only [buildTargetWith, hpre, hglob, List.append_nil]
  rw [getRuleTargetType_of_isDir_none _ _ _ hdir]
  simp only [htm, buildAllWith_nil]
  simp [buildTargetRun_runLog]

theorem claim_C10_witness :
    (initState fsNoMtime).fs.stat ("x") = some (.file none) ∧
    mtimeR (initState fsNoMtime).fs ("x") (some .negInf) .posInf =
      .ok .negInf ∧
    (buildTargetWith {} (buildAllWith .parallel (build {} 1)) ("x")
      ruleTouchX ["r"] (initState fsNoMtime)).2.runLog = ["x"] :=
  ⟨rfl,
   (claim_C10 {} .parallel (build {} 1) ("x") ruleTouchX ["r"]
      (initState fsNoMtime) rfl rfl rfl rfl).1 (some .negInf),
   (claim_C10 {} .parallel (build {} 1) ("x") ruleTouchX ["r"]
      (initState fsNoMtime) rfl rfl rfl rfl).2⟩

/-! ## Claim C2 -/

/-- **C2** — for a ruled target, once the prerequisites' aggregate
build has succeeded with mtime `r.mtime` and the target's current mtime
reads as `tm` (`-∞` for every phony target), the build body (the
callable, or the no-op assume-up-to-date path) is run iff
`tm = -∞ ∨ r.mtime > tm`; in particular on equality the target is not
rebuilt and the original `tm` is returned unchanged. -/
theorem claim_C2 (cfg : BuilderConfig)
    (bAll : List TargetName → List String → BuilderState →
      BuildOutcome × BuilderState)
    (t : TargetName) (rule : BuildRule) (tr : List String)
    (st st1 : BuilderState) (r : BuildResult) (tm : Mtime)
    (hdir : rule.isDirectory = none)
    (htm : readTargetMtime st.fs t (rule.targetType.getD .auto) = .ok tm)
    (hpre : bAll (rule.prereqs ++ cfg.globalPrereqs) (tr ++ [t]) st =
      (.ok r, st1)) :
    ((tm = .negInf ∨ Mtime.blt tm r.mtime = true) →
      (buildTargetWith cfg bAll t rule tr st).2.runLog =
        st1.runLog ++ [t]) ∧
    (¬(tm = .negInf ∨ Mtime.blt tm r.mtime = true) →
      buildTargetWith cfg bAll t rule tr st = (.ok ⟨tm⟩, st1)) ∧
    ((tm ≠ .negInf ∧ r.mtime = tm) →
      buildTargetWith cfg bAll t rule tr st = (.ok ⟨tm⟩, st1)) ∧
    (rule.targetType = some .phony → tm = .negInf) := by
  have hphony : rule.targetType = some .phony → tm = .negInf := by
    intro hp
    rw [readTargetMtime_ok] at htm
    simp only [hp, Option.getD_some, if_pos] at htm
    exact (Except.ok.injEq _ _).mp htm.symm
  simp only [buildTargetWith, getRuleTargetType_of_isDir_none _ _ _ hdir,
    htm, hpre]
  refine ⟨?_, ?_, ?_, hphony⟩
  · intro hcond
    rw [if_pos hcond]
    exact buildTargetRun_runLog _ _ _ _ _
  · intro hcond
    rw [if_neg hcond]
  · rintro ⟨hne, heq⟩
    have hnot : ¬(tm = Mtime.negInf ∨ Mtime.blt tm r.mtime = true) := by
      rintro (h | h)
      · exact hne h
      · rw [heq, mtime_blt_irrefl] at h
        exact Bool.false_ne_true h
    rw [if_neg hnot]

theorem claim_C2_witness :
    bAllCA (ruleCA.prereqs ++ cfgCA.globalPrereqs) (["root"] ++ ["c"])
        (initState fsAC100) = (.ok ⟨.fin 100⟩, stAfterA) ∧
    buildTargetWith cfgCA bAllCA ("c") ruleCA ["root"]
        (initState fsAC100) = (.ok ⟨.fin 100⟩, stAfterA) :=
  ⟨rfl,
   (claim_C2 cfgCA bAllCA ("c") ruleCA ["root"] (initState fsAC100)
      stAfterA ⟨.fin 100⟩ (.fin 100) rfl rfl rfl).2.2.1
     ⟨by decide, rfl⟩⟩

/-! ## Claim C7 -/

/-- **C7** — when a rule's build callable fails with `e` (under the
default identity transformer; `buildTargetRun` is the stale branch of
`buildTarget`, the only place build callables run), the target artifact
is recursively deleted — tolerating a missing path — exactly when the
failure-file policy says `delete`, that is, when `keepOnFailure` is
explicitly `false`, or is unspecified and the rule's target type is
`file`; it is kept otherwise.  The deletion is reflected in the final
state while the outcome is still the original error `e`, which is what
propagates. -/
theorem claim_C7 (t : TargetName) (rule : BuildRule)
    (tt : TargetTypeName) (trace : List String)
    (st : BuilderState) (f : BuildFunction) (fs' : FS) (e : JsError)
    (htrf : rule.buildFunctionTransformer = none)
    (hinv : rule.invoke = some f)
    (hf : f st.fs = (fs', some e)) :
    (getFailureFileAction rule = .delete →
      buildTargetRun t rule tt trace st =
        (.err e,
         { st with
             runLog := st.runLog ++ [t],
             invokeLog := st.invokeLog ++ [t],
             fs := { fs' with root := eraseA fs'.root t } })) ∧
    (getFailureFileAction rule = .keep →
      buildTargetRun t rule tt trace st =
        (.err e,
         { st with
             runLog := st.runLog ++ [t],
             invokeLog := st.invokeLog ++ [t],
             fs := fs' })) ∧
    (getFailureFileAction rule = .delete ↔
      (rule.keepOnFailure = some false ∨
        (rule.keepOnFailure = none ∧ rule.targetType = some .file))) := by
  have hwrap : getRuleBuildFunctionTransformer rule
      (buildInnerBody rule t tt trace) =
      buildInnerBody rule t tt trace := by
    simp [getRuleBuildFunctionTransformer, htrf]
  refine ⟨?_, ?_, ?_⟩
  · intro hact
    simp only [buildTargetRun, hinv, hwrap, buildInnerBody, hf, hact]
    have hrm : makeRemoved fs' t true =
        .ok { fs' with root := eraseA fs'.root t } := by
      cases hstat' : fs'.stat t with
      | none =>
        have : eraseA fs'.root t = fs'.root :=
          eraseA_of_lookupA_none _ _ hstat'
        simp [makeRemoved, denoRemove, hstat', notFoundError, this]
      | some node =>
        cases node <;> simp [makeRemoved, denoRemove, hstat']
    rw [hrm]
  · intro hact
    simp only [buildTargetRun, hinv, hwrap, buildInnerBody, hf, hact]
  · simp only [getFailureFileAction]
    cases hk : rule.keepOnFailure with
    | none =>
      by_cases htt : rule.targetType = some .file <;> simp [htt]
    | some b => cases b <;> simp

theorem claim_C7_witness :
    getFailureFileAction ruleW7 = .delete ∧
    ruleW7.keepOnFailure = none ∧ ruleW7.targetType = some .file ∧
    buildTargetRun ("w") ruleW7 .file ["r", "w"] (initState fsEmpty) =
      (.err eBoom,
       { fs := { now := 0, root := [] }, memo := [], runLog := ["w"],
         invokeLog := ["w"], genFetchCount := 0,
         allTargetsPromise := none }) :=
  ⟨rfl, rfl, rfl,
   (claim_C7 ("w") ruleW7 .file ["r", "w"]
      (initState fsEmpty) partialWriteW
      { now := 0, root := upsertA ([]) ("w") (.file (some 1)) } eBoom
      rfl rfl rfl).1 rfl⟩

/-- After a successful run of the stale branch, the reported mtime is
`+Infinity` for a phony target type and otherwise the value `mtimeR`
reads back on the branch's final filesystem. -/
theorem buildTargetRun_ok_mtime (t : TargetName) (rule : BuildRule)
    (tt : TargetTypeName) (trace : List String) (st : BuilderState)
    (res : BuildResult) (st' : BuilderState)
    (h : buildTargetRun t rule tt trace st = (.ok res, st')) :
    (tt = .phony → res.mtime = .posInf) ∧
    (tt ≠ .phony → mtimeR st'.fs t (some .negInf) .posInf = .ok res.mtime) := by
  cases hinv : rule.invoke <;> simp only [buildTargetRun, hinv] at h <;>
  · split at h
    · simp at h
    · rename_i heqpair
      split at h
      · rename_i m heq
        simp only [Prod.mk.injEq, BuildOutcome.ok.injEq] at h
        obtain ⟨hres, hst⟩ := h
        by_cases hph : tt = .phony
        · refine ⟨fun _ => ?_, fun hc => absurd hph hc⟩
          rw [if_pos hph] at heq
          simp only [Except.ok.injEq] at heq
          rw [← hres, ← heq]
        · refine ⟨fun hc => absurd hc hph, fun _ => ?_⟩
          rw [if_neg hph] at heq
          rw [← hst, ← hres]
          exact heq
      · simp at h

/-! ## Claim C3 -/

/-- **C3**, counterexample — the claim asserts the reported mtime after
`build(t)` succeeds is `≥` the reported mtime of every transitive
prerequisite.  Concretely: `c` is built from `a` (mtime 100) by a
callable that writes `c` with mtime 50; `build("c")` succeeds reporting
mtime 50, strictly below its prerequisite's reported 100 — the code
never re-checks the re-read mtime against the prereqs (spec §9 notes
this permissiveness). -/
theorem claim_C3_counterexample :
    (build cfgCA 3 ("c") ["root"] (initState fsA100)).1 =
      .ok ⟨.fin 50⟩ ∧
    memoLookup (build cfgCA 3 ("c") ["root"] (initState fsA100)).2 ("a") =
      some (.done (.ok ⟨.fin 100⟩)) ∧
    TransPrereq cfgCA ("a") ("c") ∧
    Mtime.blt (.fin 50) (.fin 100) = true :=
  ⟨rfl, rfl, TransPrereq.direct _ _ (by decide), rfl⟩

/-- **C3**, amended — after `build(t)` succeeds for a ruled target:
when the build action ran, the reported mtime equals the freshly
re-read mtime of the artifact on the final filesystem (`+∞` when the
target type is phony); when the target was skipped as up to date, the
originally read mtime `tm` is reported and it is `≥` the aggregate
(max) mtime reported by the direct prerequisites' builds.  The bound
over *transitive* prerequisites of a rebuilt target does not hold (see
the counterexample). -/
theorem claim_C3 (cfg : BuilderConfig)
    (bAll : List TargetName → List String → BuilderState →
      BuildOutcome × BuilderState)
    (t : TargetName) (rule : BuildRule) (tr : List String)
    (st st1 : BuilderState) (r : BuildResult) (tm : Mtime)
    (hdir : rule.isDirectory = none)
    (htm : readTargetMtime st.fs t (rule.targetType.getD .auto) = .ok tm)
    (hpre : bAll (rule.prereqs ++ cfg.globalPrereqs) (tr ++ [t]) st =
      (.ok r, st1)) :
    (∀ tt trace st0 res st0',
      buildTargetRun t rule tt trace st0 = (.ok res, st0') →
      (tt = .phony → res.mtime = .posInf) ∧
      (tt ≠ .phony →
        mtimeR st0'.fs t (some .negInf) .posInf = .ok res.mtime)) ∧
    (¬(tm = .negInf ∨ Mtime.blt tm r.mtime = true) →
      buildTargetWith cfg bAll t rule tr st = (.ok ⟨tm⟩, st1) ∧
      Mtime.blt tm r.mtime = false) := by
  constructor
  · intro tt trace st0 res st0' h
    exact buildTargetRun_ok_mtime t rule tt trace st0 res st0' h
  · intro hcond
    constructor
    · simp only [buildTargetWith,
        getRuleTargetType_of_isDir_none _ _ _ hdir, htm, hpre]
      rw [if_neg hcond]
    · rcases not_or.mp hcond with ⟨_, hblt⟩
      exact Bool.not_eq_true _ ▸ eq_false_of_ne_true hblt

theorem claim_C3_witness :
    buildTargetWith cfgCA bAllCA ("c") ruleCA ["root"]
        (initState fsAC100) = (.ok ⟨.fin 100⟩, stAfterA) ∧
    Mtime.blt (.fin 100) (.fin 100) = false :=
  (claim_C3 cfgCA bAllCA ("c") ruleCA ["root"] (initState fsAC100)
    stAfterA ⟨.fin 100⟩ (.fin 100) rfl rfl rfl).2 (by decide)

/-! ## Claim C9 -/

/-- **C9**, counterexample — the claim says `processCommandLine`
resolves to exit code 1 on any error *including parse errors*; in fact
a parse failure is never routed through
`runResultToCommandLineResult`, so the returned promise rejects (with
the parse error) instead of resolving to 1. -/
theorem claim_C9_counterexample :
    processCommandLine {} 1 ["-x"] (initState fsEmpty) =
      (.rejected unrecX, initState fsEmpty) := by
  exact rfl

/-- **C9**, amended — `processCommandLine` resolves to an integer exit
code for everything past argument parsing: 0 when `run` succeeds
(including the `--list-targets`, `--describe-targets` and `--help`
operations), 1 when `run` fails; but an error raised while parsing the
command-line arguments rejects the returned future with that error
rather than resolving it to 1. -/
theorem claim_C9 (cfg : BuilderConfig) (fuel : Nat) (args : List String)
    (st : BuilderState) :
    (∀ e, parseCommandLineArgs cfg args = .error e →
      processCommandLine cfg fuel args st = (.rejected e, st)) ∧
    (∀ params, parseCommandLineArgs cfg args = .ok params →
      ((run cfg fuel params st).1 = .ok →
        (processCommandLine cfg fuel args st).1 = .resolved 0) ∧
      (∀ e', (run cfg fuel params st).1 = .err e' →
        (processCommandLine cfg fuel args st).1 = .resolved 1) ∧
      ((params.buildOperation = .listTargets ∨
        params.buildOperation = .describeTargets ∨
        params.buildOperation = .printHelp) →
        (processCommandLine cfg fuel args st).1 = .resolved 0)) := by
  constructor
  · intro e he
    simp [processCommandLine, he]
  · intro params hp
    refine ⟨?_, ?_, ?_⟩
    · intro hok
      simp [processCommandLine, hp, runResultToCommandLineResult, hok]
    · intro e' he'
      simp [processCommandLine, hp, runResultToCommandLineResult, he']
    · intro hop
      have hok : (run cfg fuel params st).1 = .ok := by
        rcases hop with h | h | h <;> simp [run, h]
      simp [processCommandLine, hp, runResultToCommandLineResult, hok]

theorem claim_C9_witness :
    parseCommandLineArgs {} ["--help"] = .ok paramsHelp ∧
    (processCommandLine {} 1 ["--help"] (initState fsEmpty)).1 =
      .resolved 0 :=
  ⟨rfl,
   ((claim_C9 {} 1 ["--help"] (initState fsEmpty)).2 paramsHelp rfl).2.2
     (Or.inr (Or.inr rfl))⟩

/-! ## Claim C6 -/

theorem dedupGo_eq_firstOccur (l : List TargetName) :
    ∀ seen, dedupGo seen l =
      firstOccur (l.filter (fun y => decide (y ∉ seen))) := by
  induction l with
  | nil => intro seen; simp [dedupGo, firstOccur]
  | cons x rest ih =>
    intro seen
    by_cases hx : x ∈ seen
    · have hd : decide (x ∉ seen) = false := by simp [hx]
      simp only [dedupGo, if_pos hx, List.filter_cons, hd,
        Bool.false_eq_true, if_false]
      exact ih seen
    · have hd : decide (x ∉ seen) = true := by simp [hx]
      simp only [dedupGo, if_neg hx, List.filter_cons, hd, if_true,
        firstOccur]
      rw [ih (x :: seen)]
      congr 1
      rw [List.filter_filter]
      congr 1
      apply List.filter_congr
      intro y _
      by_cases hyx : y = x <;> by_cases hys : y ∈ seen <;>
        simp [hyx, hys, List.mem_cons]

/-- `deduplicate` keeps exactly the first occurrence of each name, in
order. -/
theorem deduplicate_eq_firstOccur (l : List TargetName) :
    deduplicate l = firstOccur l := by
  rw [deduplicate, dedupGo_eq_firstOccur]
  congr 1
  simp

theorem maxOkMtime_ge_acc (outs : List BuildOutcome) (acc : Mtime) :
    Mtime.blt (maxOkMtime outs acc) acc = false := by
  induction outs generalizing acc with
  | nil => exact mtime_blt_irrefl acc
  | cons o rest ih =>
    cases o with
    | ok r =>
      simp only [maxOkMtime]
      exact mtime_blt_false_trans _ _ _ (ih (acc.jmax r.mtime))
        (mtime_jmax_ge_left acc r.mtime)
    | err e => exact ih acc
    | hang => exact ih acc

theorem maxOkMtime_ge_mem (outs : List BuildOutcome) :
    ∀ (acc : Mtime) (ro : BuildResult),
      BuildOutcome.ok ro ∈ outs →
      Mtime.blt (maxOkMtime outs acc) ro.mtime = false := by
  induction outs with
  | nil => intro acc ro hmem; cases hmem
  | cons o rest ih =>
    intro acc ro hmem
    rcases List.mem_cons.mp hmem with heq | hmem'
    · rw [← heq]
      simp only [maxOkMtime]
      exact mtime_blt_false_trans _ _ _
        (maxOkMtime_ge_acc rest (acc.jmax ro.mtime))
        (mtime_jmax_ge_right acc ro.mtime)
    · cases o with
      | ok r => exact ih (acc.jmax r.mtime) ro hmem'
      | err e => exact ih acc ro hmem'
      | hang => exact ih acc ro hmem'

/-- The serial chain agrees with the parallel launch whenever none of
the launched outcomes rejected or hung. -/
theorem buildAllSerial_of_launch_ok
    (bf : TargetName → List String → BuilderState →
      BuildOutcome × BuilderState) (trace : List String) :
    ∀ (names : List TargetName) (st : BuilderState) (acc : Mtime),
      firstErr (buildAllLaunch bf trace names st).1 = none →
      anyHang (buildAllLaunch bf trace names st).1 = false →
      buildAllSerial bf trace acc names st =
        (.ok ⟨maxOkMtime (buildAllLaunch bf trace names st).1 acc⟩,
         (buildAllLaunch bf trace names st).2) := by
  intro names
  induction names with
  | nil => intro st acc _ _; rfl
  | cons n rest ih =>
    intro st acc herr hhang
    simp only [buildAllLaunch] at herr hhang ⊢
    rcases hbf : bf n trace st with ⟨o, st2⟩
    rw [hbf] at herr hhang
    cases o with
    | ok r =>
      simp only [buildAllSerial, hbf, firstErr, anyHang, maxOkMtime]
        at herr hhang ⊢
      exact ih st2 (acc.jmax r.mtime) herr hhang
    | err e => simp [firstErr] at herr
    | hang => simp [anyHang] at hhang

/-- Conversely, a successful serial chain forces every launched outcome
to be a success, with the same final state and the same max. -/
theorem launch_of_buildAllSerial_ok
    (bf : TargetName → List String → BuilderState →
      BuildOutcome × BuilderState) (trace : List String) :
    ∀ (names : List TargetName) (st : BuilderState) (acc : Mtime)
      (r : BuildResult) (st' : BuilderState),
      buildAllSerial bf trace acc names st = (.ok r, st') →
      firstErr (buildAllLaunch bf trace names st).1 = none ∧
      anyHang (buildAllLaunch bf trace names st).1 = false ∧
      maxOkMtime (buildAllLaunch bf trace names st).1 acc = r.mtime ∧
      (buildAllLaunch bf trace names st).2 = st' := by
  intro names
  induction names with
  | nil =>
    intro st acc r st' h
    simp only [buildAllSerial, Prod.mk.injEq, BuildOutcome.ok.injEq] at h
    obtain ⟨hr, hst⟩ := h
    refine ⟨rfl, rfl, ?_, hst⟩
    rw [← hr]
    rfl

  | cons n rest ih =>
    intro st acc r st' h
    simp only [buildAllSerial] at h
    rcases hbf : bf n trace st with ⟨o, st2⟩
    rw [hbf] at h
    cases o with
    | ok r0 =>
      obtain ⟨h1, h2, h3, h4⟩ := ih st2 (acc.jmax r0.mtime) r st' h
      simp only [buildAllLaunch, hbf, firstErr, anyHang, maxOkMtime]
      exact ⟨h1, h2, h3, h4⟩
    | err e => simp at h
    | hang => simp at h

/-- **C6** — `buildAll` first removes duplicates keeping first
occurrences in order; the empty request list yields `-Infinity` with
the state untouched; a parallel run resolves with result `r` and final
state `st'` exactly when the serial run (one name at a time, in order)
does; and the resolved mtime is an upper bound on every individual
launched build's reported mtime (it is their max, seeded `-∞`). -/
theorem claim_C6
    (bf : TargetName → List String → BuilderState →
      BuildOutcome × BuilderState)
    (names : List TargetName) (trace : List String) (st : BuilderState) :
    (deduplicate names = firstOccur names) ∧
    (∀ mode st0, buildAllWith mode bf [] trace st0 =
      (.ok ⟨.negInf⟩, st0)) ∧
    (∀ r st', buildAllWith .parallel bf names trace st = (.ok r, st') ↔
      buildAllWith .serial bf names trace st = (.ok r, st')) ∧
    (∀ r st' ro,
      buildAllWith .parallel bf names trace st = (.ok r, st') →
      BuildOutcome.ok ro ∈ (buildAllLaunch bf trace (deduplicate names) st).1 →
      Mtime.blt r.mtime ro.mtime = false) := by
  refine ⟨deduplicate_eq_firstOccur names, ?_, ?_, ?_⟩
  · intro mode st0
    exact buildAllWith_nil mode bf trace st0
  · intro r st'
    constructor
    · intro h
      simp only [buildAllWith, promiseAll] at h
      rcases herr : firstErr (buildAllLaunch bf trace (deduplicate names) st).1
        with _ | e
      · rw [herr] at h
        by_cases hh : anyHang (buildAllLaunch bf trace (deduplicate names) st).1 = true
        · simp [hh] at h
        · have hh' := eq_false_of_ne_true hh
          simp only [hh', Bool.false_eq_true, if_false, Prod.mk.injEq,
            BuildOutcome.ok.injEq] at h
          obtain ⟨hr, hst⟩ := h
          simp only [buildAllWith]
          rw [buildAllSerial_of_launch_ok bf trace (deduplicate names) st
            .negInf herr hh', hr, hst]
      · rw [herr] at h
        simp at h
    · intro h
      simp only [buildAllWith] at h ⊢
      obtain ⟨h1, h2, h3, h4⟩ :=
        launch_of_buildAllSerial_ok bf trace (deduplicate names) st
          .negInf r st' h
      simp only [promiseAll, h1, h2, Bool.false_eq_true, if_false, h3, h4]
  · intro r st' ro h hmem
    simp only [buildAllWith, promiseAll] at h
    rcases herr : firstErr (buildAllLaunch bf trace (deduplicate names) st).1
      with _ | e
    · rw [herr] at h
      by_cases hh : anyHang (buildAllLaunch bf trace (deduplicate names) st).1 = true
      · simp [hh] at h
      · have hh' := eq_false_of_ne_true hh
        simp only [hh', Bool.false_eq_true, if_false, Prod.mk.injEq,
          BuildOutcome.ok.injEq] at h
        obtain ⟨hr, _⟩ := h
        rw [← hr]
        exact maxOkMtime_ge_mem _ _ _ hmem
    · rw [herr] at h
      simp at h

theorem claim_C6_witness :
    deduplicate (["a", "b", "a"]) = firstOccur (["a", "b", "a"]) ∧
    buildAllWith .parallel bfTwo (["a", "b", "a"]) ["r"]
        (initState fsTwo) = (.ok ⟨.fin 7⟩, stParTwo) ∧
    buildAllWith .serial bfTwo (["a", "b", "a"]) ["r"]
        (initState fsTwo) = (.ok ⟨.fin 7⟩, stParTwo) :=
  ⟨(claim_C6 bfTwo (["a", "b", "a"]) ["r"] (initState fsTwo)).1,
   rfl,
   ((claim_C6 bfTwo (["a", "b", "a"]) ["r"] (initState fsTwo)).2.2.1
      ⟨.fin 7⟩ stParTwo).mp rfl⟩

/-! ## Memoization infrastructure: key lemmas -/

theorem lookupA_eq_none_iff {α : Type} (l : List (String × α)) (k : String) :
    lookupA l k = none ↔ k ∉ l.map Prod.fst := by
  induction l with
  | nil => simp [lookupA]
  | cons hd tl ih =>
    simp only [lookupA, List.map_cons, List.mem_cons]
    by_cases hk : hd.1 = k
    · simp [hk]
    · simp [hk, ih, Ne.symm hk]

theorem keys_upsertA_of_mem {α : Type} (l : List (String × α))
    (k : String) (v : α) (h : k ∈ l.map Prod.fst) :
    (upsertA l k v).map Prod.fst = l.map Prod.fst := by
  induction l with
  | nil => simp at h
  | cons hd tl ih =>
    simp only [List.map_cons, List.mem_cons] at h
    simp only [upsertA]
    by_cases hk : hd.1 = k
    · simp [hk]
    · rcases h with h | h
      · exact absurd h.symm hk
      · simp [hk, ih h]

theorem memoLookup_mk (st : BuilderState) (m) (t) :
    memoLookup { st with memo := m } t = lookupA m t := rfl

/-- `fetchBuildRuleForTarget` only bumps the generated-targets counter:
all other state components are untouched. -/
theorem fetch_state (cfg : BuilderConfig) (st : BuilderState)
    (tn : TargetName) :
    (fetchBuildRuleForTarget cfg st tn).2.memo = st.memo ∧
    (fetchBuildRuleForTarget cfg st tn).2.runLog = st.runLog ∧
    (fetchBuildRuleForTarget cfg st tn).2.invokeLog = st.invokeLog ∧
    (fetchBuildRuleForTarget cfg st tn).2.allTargetsPromise =
      st.allTargetsPromise ∧
    (fetchBuildRuleForTarget cfg st tn).2.fs = st.fs := by
  cases h : st.allTargetsPromise <;>
    simp [fetchBuildRuleForTarget, fetchAllBuildRules, h]

/-- With the cache unset (always, in reachable states), rule resolution
is lookup in the merged static-then-generated map. -/
theorem fetch_rule_of_atp_none (cfg : BuilderConfig) (st : BuilderState)
    (tn : TargetName) (h : st.allTargetsPromise = none) :
    (fetchBuildRuleForTarget cfg st tn).1 =
      lookupA (mergedRules cfg) tn := by
  simp [fetchBuildRuleForTarget, fetchAllBuildRules, h, mergedRules]

/-- The stale branch leaves everything but the filesystem and the two
logs unchanged, appending the target to `runLog` and (when a callable
exists) to `invokeLog`. -/
theorem buildTargetRun_state (t : TargetName) (rule : BuildRule)
    (tt : TargetTypeName) (trace : List String) (st : BuilderState) :
    ∃ fsX, (buildTargetRun t rule tt trace st).2 =
      { st with
          fs := fsX,
          runLog := st.runLog ++ [t],
          invokeLog :=
            match rule.invoke with
            | some _ => st.invokeLog ++ [t]
            | none => st.invokeLog } := by
  cases hinv : rule.invoke <;>
    (simp only [buildTargetRun, hinv]
     split
     · exact ⟨_, rfl⟩
     · split <;> exact ⟨_, rfl⟩)

theorem memoExtends_refl (st : BuilderState) : MemoExtends st st :=
  fun _ _ h => h

theorem memoExtends_trans {a b c : BuilderState}
    (h1 : MemoExtends a b) (h2 : MemoExtends b c) : MemoExtends a c :=
  fun u v h => h2 u v (h1 u v h)

theorem memoExtends_ne_none {a b : BuilderState} (h : MemoExtends a b)
    (u : TargetName) (hu : memoLookup a u ≠ none) :
    memoLookup b u ≠ none := by
  cases hl : memoLookup a u with
  | none => exact absurd hl hu
  | some v => rw [h u v hl]; simp

/-- `buildTarget` as a whole, given the aggregate-build properties:
it extends the memo table, keeps the rule-set cache and the invariant,
never re-schedules a callable for an already-known target other than
`t` itself, and on success all its prerequisites are settled-ok. -/
theorem BTW_pres (cfg : BuilderConfig)
    (bAll : List TargetName → List String → BuilderState →
      BuildOutcome × BuilderState)
    (t : TargetName) (rule : BuildRule) (tr : List String)
    (st : BuilderState)
    (hext : ∀ ns tr0 st0, MemoExtends st0 (bAll ns tr0 st0).2)
    (hatp : ∀ ns tr0 st0,
      (bAll ns tr0 st0).2.allTargetsPromise = st0.allTargetsPromise)
    (hcnt : ∀ ns tr0 st0 u, memoLookup st0 u ≠ none →
      List.count u (bAll ns tr0 st0).2.invokeLog =
        List.count u st0.invokeLog)
    (hpres : ∀ ns tr0 st0, StInv cfg st0 → StInv cfg (bAll ns tr0 st0).2)
    (hOkE : ∀ ns tr0 st0 r st', bAll ns tr0 st0 = (.ok r, st') →
      ∀ p ∈ ns, isDoneOk (memoLookup st' p) = true)
    (hInv : StInv cfg st) (hpend : memoLookup st t = some .pending)
    (hcnt0 : List.count t st.invokeLog = 0) :
    StInv cfg (buildTargetWith cfg bAll t rule tr st).2 ∧
    MemoExtends st (buildTargetWith cfg bAll t rule tr st).2 ∧
    (buildTargetWith cfg bAll t rule tr st).2.allTargetsPromise =
      st.allTargetsPromise ∧
    (∀ u, memoLookup st u ≠ none → u ≠ t →
      List.count u (buildTargetWith cfg bAll t rule tr st).2.invokeLog =
        List.count u st.invokeLog) ∧
    (∀ r, (buildTargetWith cfg bAll t rule tr st).1 = .ok r →
      ∀ p ∈ rule.prereqs ++ cfg.globalPrereqs,
        isDoneOk
          (memoLookup (buildTargetWith cfg bAll t rule tr st).2 p) =
          true) := by
  simp only [buildTargetWith]
  split
  · exact ⟨hInv, memoExtends_refl st, rfl,
      fun u _ _ => rfl, fun r hr => by simp at hr⟩
  · rename_i tt heqtt
    split
    · exact ⟨hInv, memoExtends_refl st, rfl,
        fun u _ _ => rfl, fun r hr => by simp at hr⟩
    · rename_i tm heqtm
      split
      · rename_i st1 heq
        have h2 : (bAll (rule.prereqs ++ cfg.globalPrereqs) (tr ++ [t]) st).2 = st1 := by
          rw [heq]
        exact ⟨h2 ▸ hpres _ _ _ hInv, h2 ▸ hext _ _ _, h2 ▸ hatp _ _ _,
          fun u hu _ => h2 ▸ hcnt _ _ _ u hu, fun r hr => by simp at hr⟩
      · rename_i st1 heq
        have h2 : (bAll (rule.prereqs ++ cfg.globalPrereqs) (tr ++ [t]) st).2 = st1 := by
          rw [heq]
        exact ⟨h2 ▸ hpres _ _ _ hInv, h2 ▸ hext _ _ _, h2 ▸ hatp _ _ _,
          fun u hu _ => h2 ▸ hcnt _ _ _ u hu, fun r hr => by simp at hr⟩
      · rename_i latest st1 heq
        have h2 : (bAll (rule.prereqs ++ cfg.globalPrereqs) (tr ++ [t]) st).2 = st1 := by
          rw [heq]
        have hInv1 : StInv cfg st1 := h2 ▸ hpres _ _ _ hInv
        have hext1 : MemoExtends st st1 := h2 ▸ hext _ _ _
        have hatp1 : st1.allTargetsPromise = st.allTargetsPromise :=
          h2 ▸ hatp _ _ _
        have hcnt1 : ∀ u, memoLookup st u ≠ none →
            List.count u st1.invokeLog = List.count u st.invokeLog :=
          fun u hu => h2 ▸ hcnt _ _ _ u hu
        have hpend1 : memoLookup st1 t = some .pending :=
          hext1 t .pending hpend
        have hpend1ne : memoLookup st t ≠ none := by rw [hpend]; simp
        have hE1 : ∀ p ∈ rule.prereqs ++ cfg.globalPrereqs,
            isDoneOk (memoLookup st1 p) = true :=
          hOkE _ _ _ _ _ heq
        split
        · -- stale branch: buildTargetRun
          obtain ⟨fsX, hst3⟩ :=
            buildTargetRun_state t rule tt (tr ++ [t]) st1
          have hlk3 : ∀ u,
              memoLookup (buildTargetRun t rule tt (tr ++ [t]) st1).2 u =
                memoLookup st1 u := by
            intro u
            rw [hst3]
            rfl
          have hatp3 :
              (buildTargetRun t rule tt (tr ++ [t]) st1).2.allTargetsPromise =
                st.allTargetsPromise := by
            rw [hst3]
            exact hatp1
          have hil3 :
              (buildTargetRun t rule tt (tr ++ [t]) st1).2.invokeLog =
                (match rule.invoke with
                 | some _ => st1.invokeLog ++ [t]
                 | none => st1.invokeLog) := by rw [hst3]
          have hcnt3 : ∀ u, u ≠ t →
              List.count u
                (buildTargetRun t rule tt (tr ++ [t]) st1).2.invokeLog =
                List.count u st1.invokeLog := by
            intro u hut
            cases hinv : rule.invoke with
            | none => simp only [hil3, hinv]
            | some f =>
              simp only [hil3, hinv, List.count_append]
              have hz : List.count u [t] = 0 := by
                simp [List.count_eq_zero, hut]
              omega
          have h0 : List.count t st1.invokeLog = 0 := by
            rw [hcnt1 t hpend1ne, hcnt0]
          have hcntT : List.count t
              (buildTargetRun t rule tt (tr ++ [t]) st1).2.invokeLog ≤ 1 := by
            cases hinv : rule.invoke with
            | none =>
              simp only [hil3, hinv]
              omega
            | some f =>
              simp only [hil3, hinv, List.count_append, h0]
              simp [List.count_singleton]
          refine ⟨⟨?_, ?_, ?_, ?_⟩, ?_, hatp3, ?_, ?_⟩
          · rw [hatp3]
            exact hInv.1
          · have hnd := hInv1.2.1
            unfold NodupKeys at hnd ⊢
            rw [hst3]
            exact hnd
          · intro u
            by_cases hut : u = t
            · subst hut
              refine ⟨hcntT, fun _ => ?_⟩
              rw [hlk3, hpend1]
              simp
            · refine ⟨?_, ?_⟩
              · rw [hcnt3 u hut]
                exact (hInv1.2.2.1 u).1
              · intro h1
                rw [hcnt3 u hut] at h1
                rw [hlk3]
                exact (hInv1.2.2.1 u).2 h1
          · intro u r hu p hp
            rw [hlk3] at hu ⊢
            exact hInv1.2.2.2 u r hu p hp
          · refine memoExtends_trans hext1 ?_
            intro u v h
            rw [hlk3]
            exact h
          · intro u hu hut
            rw [hcnt3 u hut]
            exact hcnt1 u hu
          · intro r _ p hp
            rw [hlk3]
            exact hE1 p hp
        · -- up-to-date branch: nothing else changes
          exact ⟨hInv1, hext1, hatp1,
            fun u hu _ => hcnt1 u hu,
            fun r _ p hp => hE1 p hp⟩

theorem mem_dedupGo (x : TargetName) (l : List TargetName) :
    ∀ seen, x ∈ dedupGo seen l ↔ (x ∈ l ∧ x ∉ seen) := by
  induction l with
  | nil => intro seen; simp [dedupGo]
  | cons y rest ih =>
    intro seen
    by_cases hy : y ∈ seen
    · rw [dedupGo, if_pos hy, ih seen]
      constructor
      · rintro ⟨h1, h2⟩
        exact ⟨List.mem_cons_of_mem y h1, h2⟩
      · rintro ⟨h1, h2⟩
        rcases List.mem_cons.mp h1 with rfl | h1'
        · exact absurd hy h2
        · exact ⟨h1', h2⟩
    · rw [dedupGo, if_neg hy]
      constructor
      · intro hmem
        rcases List.mem_cons.mp hmem with rfl | h1
        · exact ⟨List.mem_cons_self x rest, hy⟩
        · obtain ⟨ha, hb⟩ := (ih (y :: seen)).mp h1
          refine ⟨List.mem_cons_of_mem y ha, fun hc => hb ?_⟩
          exact List.mem_cons_of_mem y hc
      · rintro ⟨h1, h2⟩
        rcases List.mem_cons.mp h1 with rfl | h1'
        · exact List.mem_cons_self x _
        · by_cases hxy : x = y
          · subst hxy
            exact List.mem_cons_self x _
          · refine List.mem_cons_of_mem y ?_
            refine (ih (y :: seen)).mpr ⟨h1', fun hc => ?_⟩
            rcases List.mem_cons.mp hc with h | h
            · exact hxy h
            · exact h2 h

theorem mem_deduplicate (x : TargetName) (l : List TargetName) :
    x ∈ deduplicate l ↔ x ∈ l := by
  rw [deduplicate, mem_dedupGo]
  simp

/-- `buildAllSerial` composes the per-target facts along the chain. -/
theorem BAs_pack (cfg : BuilderConfig)
    (bf : TargetName → List String → BuilderState →
      BuildOutcome × BuilderState)
    (h : BFOk cfg bf) (tr : List String) :
    ∀ (names : List TargetName) (acc : Mtime) (st : BuilderState),
      MemoExtends st (buildAllSerial bf tr acc names st).2 ∧
      (buildAllSerial bf tr acc names st).2.allTargetsPromise =
        st.allTargetsPromise ∧
      (∀ u, memoLookup st u ≠ none →
        List.count u (buildAllSerial bf tr acc names st).2.invokeLog =
          List.count u st.invokeLog) ∧
      (StInv cfg st → StInv cfg (buildAllSerial bf tr acc names st).2) := by
  intro names
  induction names with
  | nil =>
    intro acc st
    exact ⟨memoExtends_refl st, rfl, fun u _ => rfl, id⟩
  | cons n rest ih =>
    intro acc st
    rcases hbf : bf n tr st with ⟨o, st2⟩
    have hx : (bf n tr st).2 = st2 := by rw [hbf]
    have e1 : MemoExtends st st2 := hx ▸ h.ext n tr st
    have a1 : st2.allTargetsPromise = st.allTargetsPromise :=
      hx ▸ h.atp n tr st
    have c1 : ∀ u, memoLookup st u ≠ none →
        List.count u st2.invokeLog = List.count u st.invokeLog :=
      fun u hu => hx ▸ h.noReinvoke n tr st u hu
    have p1 : StInv cfg st → StInv cfg st2 :=
      fun hI => hx ▸ h.pres n tr st hI
    cases o with
    | ok r =>
      simp only [buildAllSerial, hbf]
      obtain ⟨e2, a2, c2, p2⟩ := ih (acc.jmax r.mtime) st2
      exact ⟨memoExtends_trans e1 e2, a2.trans a1,
        fun u hu => (c2 u (memoExtends_ne_none e1 u hu)).trans (c1 u hu),
        fun hI => p2 (p1 hI)⟩
    | err e =>
      simp only [buildAllSerial, hbf]
      exact ⟨e1, a1, c1, p1⟩
    | hang =>
      simp only [buildAllSerial, hbf]
      exact ⟨e1, a1, c1, p1⟩

/-- `buildAllLaunch` composes the per-target facts along the launches. -/
theorem BAl_pack (cfg : BuilderConfig)
    (bf : TargetName → List String → BuilderState →
      BuildOutcome × BuilderState)
    (h : BFOk cfg bf) (tr : List String) :
    ∀ (names : List TargetName) (st : BuilderState),
      MemoExtends st (buildAllLaunch bf tr names st).2 ∧
      (buildAllLaunch bf tr names st).2.allTargetsPromise =
        st.allTargetsPromise ∧
      (∀ u, memoLookup st u ≠ none →
        List.count u (buildAllLaunch bf tr names st).2.invokeLog =
          List.count u st.invokeLog) ∧
      (StInv cfg st → StInv cfg (buildAllLaunch bf tr names st).2) := by
  intro names
  induction names with
  | nil =>
    intro st
    exact ⟨memoExtends_refl st, rfl, fun u _ => rfl, id⟩
  | cons n rest ih =>
    intro st
    simp only [buildAllLaunch]
    obtain ⟨e2, a2, c2, p2⟩ := ih (bf n tr st).2
    exact ⟨memoExtends_trans (h.ext n tr st) e2,
      a2.trans (h.atp n tr st),
      fun u hu => (c2 u (memoExtends_ne_none (h.ext n tr st) u hu)).trans
        (h.noReinvoke n tr st u hu),
      fun hI => p2 (h.pres n tr st hI)⟩

/-- A serially successful chain left every listed target settled-ok. -/
theorem BAs_okEntries (cfg : BuilderConfig)
    (bf : TargetName → List String → BuilderState →
      BuildOutcome × BuilderState)
    (h : BFOk cfg bf) (tr : List String) :
    ∀ (names : List TargetName) (acc : Mtime) (st : BuilderState)
      (r : BuildResult) (st' : BuilderState),
      buildAllSerial bf tr acc names st = (.ok r, st') →
      ∀ p ∈ names, isDoneOk (memoLookup st' p) = true := by
  intro names
  induction names with
  | nil => intro acc st r st' _ p hp; cases hp
  | cons n rest ih =>
    intro acc st r st' hser p hp
    rcases hbf : bf n tr st with ⟨o, st2⟩
    cases o with
    | ok rn =>
      simp only [buildAllSerial, hbf] at hser
      rcases List.mem_cons.mp hp with rfl | hp'
      · have h1 : (bf p tr st).1 = .ok rn := by rw [hbf]
        have h2 : memoLookup (bf p tr st).2 p = some (.done (.ok rn)) :=
          h.okMemo p tr st rn h1
        have h3 : memoLookup st2 p = some (.done (.ok rn)) := by
          rw [hbf] at h2
          exact h2
        have hserst : (buildAllSerial bf tr (acc.jmax rn.mtime) rest st2).2 = st' := by
          rw [hser]
        have e2 := (BAs_pack cfg bf h tr rest (acc.jmax rn.mtime) st2).1
        have h4 : memoLookup st' p = some (.done (.ok rn)) :=
          hserst ▸ e2 p (.done (.ok rn)) h3
        rw [h4]
        rfl
      · exact ih (acc.jmax rn.mtime) st2 r st' hser p hp'
    | err e =>
      simp only [buildAllSerial, hbf] at hser
      cases hser
    | hang =>
      simp only [buildAllSerial, hbf] at hser
      cases hser

/-- When no launched build rejected or hung, every listed target is
settled-ok in the launch's final state. -/
theorem BAl_okEntries (cfg : BuilderConfig)
    (bf : TargetName → List String → BuilderState →
      BuildOutcome × BuilderState)
    (h : BFOk cfg bf) (tr : List String) :
    ∀ (names : List TargetName) (st : BuilderState),
      firstErr (buildAllLaunch bf tr names st).1 = none →
      anyHang (buildAllLaunch bf tr names st).1 = false →
      ∀ p ∈ names,
        isDoneOk (memoLookup (buildAllLaunch bf tr names st).2 p) = true := by
  intro names
  induction names with
  | nil => intro st _ _ p hp; cases hp
  | cons n rest ih =>
    intro st herr hhang p hp
    simp only [buildAllLaunch] at herr hhang ⊢
    rcases hbf : bf n tr st with ⟨o, st2⟩
    rw [hbf] at herr hhang
    cases o with
    | ok rn =>
      simp only [firstErr] at herr
      simp only [anyHang] at hhang
      rcases List.mem_cons.mp hp with rfl | hp'
      · have h1 : (bf p tr st).1 = .ok rn := by rw [hbf]
        have h2 : memoLookup st2 p = some (.done (.ok rn)) := by
          have := h.okMemo p tr st rn h1
          rw [hbf] at this
          exact this
        have e2 := (BAl_pack cfg bf h tr rest st2).1
        have h4 : memoLookup (buildAllLaunch bf tr rest st2).2 p =
            some (.done (.ok rn)) := e2 p (.done (.ok rn)) h2
        show isDoneOk (memoLookup (buildAllLaunch bf tr rest st2).2 p) = true
        rw [h4]
        rfl
      · exact ih st2 herr hhang p hp'
    | err e => simp [firstErr] at herr
    | hang => simp [anyHang] at hhang

theorem promiseAll_ok_inv (outs : List BuildOutcome) (r : BuildResult)
    (h : promiseAll outs = .ok r) :
    firstErr outs = none ∧ anyHang outs = false := by
  unfold promiseAll at h
  cases h1 : firstErr outs with
  | some e => rw [h1] at h; cases h
  | none =>
    rw [h1] at h
    by_cases h2 : anyHang outs = true
    · rw [if_pos h2] at h; cases h
    · exact ⟨rfl, eq_false_of_ne_true h2⟩

/-- `buildAll`'s composite facts, both modes. -/
theorem BAw_pack (cfg : BuilderConfig) (mode : ConcurrencyMode)
    (bf : TargetName → List String → BuilderState →
      BuildOutcome × BuilderState)
    (h : BFOk cfg bf) (ns : List TargetName) (tr : List String)
    (st : BuilderState) :
    MemoExtends st (buildAllWith mode bf ns tr st).2 ∧
    (buildAllWith mode bf ns tr st).2.allTargetsPromise =
      st.allTargetsPromise ∧
    (∀ u, memoLookup st u ≠ none →
      List.count u (buildAllWith mode bf ns tr st).2.invokeLog =
        List.count u st.invokeLog) ∧
    (StInv cfg st → StInv cfg (buildAllWith mode bf ns tr st).2) := by
  cases mode with
  | serial => exact BAs_pack cfg bf h tr (deduplicate ns) .negInf st
  | parallel => exact BAl_pack cfg bf h tr (deduplicate ns) st

/-- On success, `buildAll` leaves every requested target settled-ok. -/
theorem BAw_okEntries (cfg : BuilderConfig) (mode : ConcurrencyMode)
    (bf : TargetName → List String → BuilderState →
      BuildOutcome × BuilderState)
    (h : BFOk cfg bf) (ns : List TargetName) (tr : List String)
    (st : BuilderState) (r : BuildResult) (st' : BuilderState)
    (hok : buildAllWith mode bf ns tr st = (.ok r, st')) :
    ∀ p ∈ ns, isDoneOk (memoLookup st' p) = true := by
  intro p hp
  have hpd : p ∈ deduplicate ns := (mem_deduplicate p ns).mpr hp
  cases mode with
  | serial =>
    exact BAs_okEntries cfg bf h tr (deduplicate ns) .negInf st r st'
      hok p hpd
  | parallel =>
    simp only [buildAllWith, Prod.mk.injEq] at hok
    obtain ⟨h1, h2⟩ := hok
    obtain ⟨he, hh⟩ := promiseAll_ok_inv _ _ h1
    have := BAl_okEntries cfg bf h tr (deduplicate ns) st he hh p hpd
    rw [h2] at this
    exact this

theorem isDoneOk_iff (x : Option (MemoEntry BuildOutcome)) :
    isDoneOk x = true ↔ ∃ r, x = some (.done (.ok r)) := by
  cases x with
  | none => simp [isDoneOk]
  | some e =>
    cases e with
    | pending => simp [isDoneOk]
    | done o =>
      cases o with
      | ok r => simp [isDoneOk]
      | err e => simp [isDoneOk]
      | hang => simp [isDoneOk]

theorem lookupA_append_cases {α : Type} (l l' : List (String × α))
    (k : String) (w : α) (h : lookupA (l ++ l') k = some w) :
    lookupA l k = some w ∨ (lookupA l k = none ∧ lookupA l' k = some w) := by
  cases hl : lookupA l k with
  | some v =>
    left
    rw [lookupA_append_of_some l l' k v hl] at h
    exact h
  | none =>
    right
    rw [lookupA_append_of_none l l' k hl] at h
    exact ⟨rfl, h⟩

/-- `StInv` only depends on the memo table, the invocation log and the
rule-set cache field. -/
theorem stinv_of_eq_parts (cfg : BuilderConfig) (st st' : BuilderState)
    (h1 : st'.memo = st.memo) (h2 : st'.invokeLog = st.invokeLog)
    (h3 : st'.allTargetsPromise = st.allTargetsPromise)
    (hI : StInv cfg st) : StInv cfg st' := by
  obtain ⟨a, b, c, d⟩ := hI
  refine ⟨by rw [h3, a], ?_, ?_, ?_⟩
  · unfold NodupKeys at b ⊢
    rw [h1]
    exact b
  · intro u
    simp only [memoLookup, h1, h2]
    exact c u
  · intro u r hu p hp
    simp only [memoLookup, h1] at hu ⊢
    exact d u r hu p hp

/-- The unconditional facts about `buildTarget`: memo extension, cache
stability, no new invocation for a target other than `t` that is
already known, and settled-ok prerequisites on success. -/
theorem BTW_basic (cfg : BuilderConfig)
    (bAll : List TargetName → List String → BuilderState →
      BuildOutcome × BuilderState)
    (t : TargetName) (rule : BuildRule) (tr : List String)
    (st : BuilderState)
    (hext : ∀ ns tr0 st0, MemoExtends st0 (bAll ns tr0 st0).2)
    (hatp : ∀ ns tr0 st0,
      (bAll ns tr0 st0).2.allTargetsPromise = st0.allTargetsPromise)
    (hcnt : ∀ ns tr0 st0 u, memoLookup st0 u ≠ none →
      List.count u (bAll ns tr0 st0).2.invokeLog =
        List.count u st0.invokeLog)
    (hOkE : ∀ ns tr0 st0 r st', bAll ns tr0 st0 = (.ok r, st') →
      ∀ p ∈ ns, isDoneOk (memoLookup st' p) = true) :
    MemoExtends st (buildTargetWith cfg bAll t rule tr st).2 ∧
    (buildTargetWith cfg bAll t rule tr st).2.allTargetsPromise =
      st.allTargetsPromise ∧
    (∀ u, memoLookup st u ≠ none → u ≠ t →
      List.count u (buildTargetWith cfg bAll t rule tr st).2.invokeLog =
        List.count u st.invokeLog) ∧
    (∀ r, (buildTargetWith cfg bAll t rule tr st).1 = .ok r →
      ∀ p ∈ rule.prereqs ++ cfg.globalPrereqs,
        isDoneOk
          (memoLookup (buildTargetWith cfg bAll t rule tr st).2 p) =
          true) := by
  simp only [buildTargetWith]
  split
  · exact ⟨memoExtends_refl st, rfl, fun u _ _ => rfl,
      fun r hr => by simp at hr⟩
  · rename_i tt heqtt
    split
    · exact ⟨memoExtends_refl st, rfl, fun u _ _ => rfl,
        fun r hr => by simp at hr⟩
    · rename_i tm heqtm
      split
      · rename_i st1 heq
        have h2 : (bAll (rule.prereqs ++ cfg.globalPrereqs) (tr ++ [t]) st).2 = st1 := by
          rw [heq]
        exact ⟨h2 ▸ hext _ _ _, h2 ▸ hatp _ _ _,
          fun u hu _ => h2 ▸ hcnt _ _ _ u hu, fun r hr => by simp at hr⟩
      · rename_i st1 heq
        have h2 : (bAll (rule.prereqs ++ cfg.globalPrereqs) (tr ++ [t]) st).2 = st1 := by
          rw [heq]
        exact ⟨h2 ▸ hext _ _ _, h2 ▸ hatp _ _ _,
          fun u hu _ => h2 ▸ hcnt _ _ _ u hu, fun r hr => by simp at hr⟩
      · rename_i latest st1 heq
        have h2 : (bAll (rule.prereqs ++ cfg.globalPrereqs) (tr ++ [t]) st).2 = st1 := by
          rw [heq]
        have hext1 : MemoExtends st st1 := h2 ▸ hext _ _ _
        have hatp1 : st1.allTargetsPromise = st.allTargetsPromise :=
          h2 ▸ hatp _ _ _
        have hcnt1 : ∀ u, memoLookup st u ≠ none →
            List.count u st1.invokeLog = List.count u st.invokeLog :=
          fun u hu => h2 ▸ hcnt _ _ _ u hu
        have hE1 : ∀ p ∈ rule.prereqs ++ cfg.globalPrereqs,
            isDoneOk (memoLookup st1 p) = true :=
          hOkE _ _ _ _ _ heq
        split
        · obtain ⟨fsX, hst3⟩ :=
            buildTargetRun_state t rule tt (tr ++ [t]) st1
          have hlk3 : ∀ u,
              memoLookup (buildTargetRun t rule tt (tr ++ [t]) st1).2 u =
                memoLookup st1 u := by
            intro u
            rw [hst3]
            rfl
          have hil3 :
              (buildTargetRun t rule tt (tr ++ [t]) st1).2.invokeLog =
                (match rule.invoke with
                 | some _ => st1.invokeLog ++ [t]
                 | none => st1.invokeLog) := by rw [hst3]
          have hcnt3 : ∀ u, u ≠ t →
              List.count u
                (buildTargetRun t rule tt (tr ++ [t]) st1).2.invokeLog =
                List.count u st1.invokeLog := by
            intro u hut
            cases hinv : rule.invoke with
            | none => simp only [hil3, hinv]
            | some f =>
              simp only [hil3, hinv, List.count_append]
              have hz : List.count u [t] = 0 := by
                simp [List.count_eq_zero, hut]
              omega
          refine ⟨?_, ?_, ?_, ?_⟩
          · refine memoExtends_trans hext1 ?_
            intro u v h
            rw [hlk3]
            exact h
          · rw [hst3]
            exact hatp1
          · intro u hu hut
            rw [hcnt3 u hut]
            exact hcnt1 u hu
          · intro r _ p hp
            rw [hlk3]
            exact hE1 p hp
        · exact ⟨hext1, hatp1, fun u hu _ => hcnt1 u hu,
            fun r _ p hp => hE1 p hp⟩

/-- Settling the dispatched promise: writing `done o` over the pending
entry for `t` preserves all the tracked facts. -/
theorem final_upsert_facts (cfg : BuilderConfig) (t : TargetName)
    (st st3 : BuilderState) (o : BuildOutcome)
    (hext : MemoExtends st st3)
    (hatp : st3.allTargetsPromise = st.allTargetsPromise)
    (hcnt : ∀ u, memoLookup st u ≠ none →
      List.count u st3.invokeLog = List.count u st.invokeLog)
    (hm : lookupA st.memo t = none)
    (hpend3 : memoLookup st3 t = some .pending)
    (hInvPres : StInv cfg st → StInv cfg st3)
    (hOk3 : StInv cfg st → ∀ r, o = .ok r →
      ∀ p ∈ prereqListOf cfg t, isDoneOk (memoLookup st3 p) = true) :
    MemoExtends st
      { st3 with memo := upsertA st3.memo t (.done o) } ∧
    ({ st3 with memo := upsertA st3.memo t (.done o) }).allTargetsPromise =
      st.allTargetsPromise ∧
    (∀ u, memoLookup st u ≠ none →
      List.count u
        ({ st3 with memo := upsertA st3.memo t (.done o) }).invokeLog =
        List.count u st.invokeLog) ∧
    (StInv cfg st →
      StInv cfg { st3 with memo := upsertA st3.memo t (.done o) }) := by
  have lk4 : ∀ u, u ≠ t →
      memoLookup { st3 with memo := upsertA st3.memo t (.done o) } u =
        memoLookup st3 u :=
    fun u hut => lookupA_upsertA_ne st3.memo t u (.done o) hut
  have lkt : memoLookup { st3 with memo := upsertA st3.memo t (.done o) } t =
      some (.done o) := lookupA_upsertA_self st3.memo t (.done o)
  have hp_ne_t : ∀ p, isDoneOk (memoLookup st3 p) = true → p ≠ t := by
    intro p hp hpt
    subst hpt
    rw [hpend3] at hp
    simp [isDoneOk] at hp
  refine ⟨?_, hatp, fun u hu => hcnt u hu, ?_⟩
  · intro u v h
    have hut : u ≠ t := by
      intro hx
      subst hx
      rw [show memoLookup st u = lookupA st.memo u from rfl, hm] at h
      cases h
    rw [lk4 u hut]
    exact hext u v h
  · intro hI
    have hI3 := hInvPres hI
    have htk : t ∈ st3.memo.map Prod.fst := by
      by_contra hc
      rw [show memoLookup st3 t = lookupA st3.memo t from rfl,
        (lookupA_eq_none_iff st3.memo t).mpr hc] at hpend3
      cases hpend3
    refine ⟨?_, ?_, ?_, ?_⟩
    · show st3.allTargetsPromise = none
      rw [hatp]
      exact hI.1
    · unfold NodupKeys
      show (upsertA st3.memo t (.done o)).map Prod.fst |>.Nodup
      rw [keys_upsertA_of_mem st3.memo t (.done o) htk]
      exact hI3.2.1
    · intro u
      refine ⟨(hI3.2.2.1 u).1, fun h1 => ?_⟩
      by_cases hut : u = t
      · subst hut
        rw [lkt]
        simp
      · rw [lk4 u hut]
        exact (hI3.2.2.1 u).2 h1
    · intro u r hu p hp
      by_cases hut : u = t
      · subst hut
        rw [lkt] at hu
        have ho : o = .ok r := by
          injection hu with hu1
          injection hu1
        have h3 := hOk3 hI r ho p hp
        have hpt := hp_ne_t p h3
        rw [lk4 p hpt]
        exact h3
      · rw [lk4 u hut] at hu
        have h3 := hI3.2.2.2 u r hu p hp
        have hpt := hp_ne_t p h3
        rw [lk4 p hpt]
        exact h3

/-- After any `build` call at positive fuel, either the target's memo
entry is its settled outcome, or the call found an in-flight entry and
awaited it forever (self-dependency), leaving the state alone. -/
theorem build_memo_after (cfg : BuilderConfig) (fuel : Nat)
    (t : TargetName) (tr : List String) (st : BuilderState) :
    memoLookup (build cfg (fuel + 1) t tr st).2 t =
      some (.done (build cfg (fuel + 1) t tr st).1) ∨
    (memoLookup st t = some .pending ∧
      build cfg (fuel + 1) t tr st = (.hang, st)) := by
  simp only [build]
  split
  · rename_i o hm
    left
    exact hm
  · rename_i hm
    right
    exact ⟨hm, rfl⟩
  · rename_i hm
    left
    exact lookupA_upsertA_self _ _ _

/-- A settled memo entry is returned as-is, with the state untouched. -/
theorem build_of_memo_done (cfg : BuilderConfig) (fuel : Nat)
    (t : TargetName) (tr : List String) (st : BuilderState)
    (o : BuildOutcome) (h : lookupA st.memo t = some (.done o)) :
    build cfg (fuel + 1) t tr st = (o, st) := by
  simp only [build, h]

/-- A pending memo entry makes the caller await the in-flight promise
(the interpreter's model of which is `hang`), with the state untouched. -/
theorem build_of_memo_pending (cfg : BuilderConfig) (fuel : Nat)
    (t : TargetName) (tr : List String) (st : BuilderState)
    (h : lookupA st.memo t = some .pending) :
    build cfg (fuel + 1) t tr st = (.hang, st) := by
  simp only [build, h]

/-- One step of the fuel induction: `build` at fuel `fuel + 1` has the
tracked facts provided `build` at fuel `fuel` has them. -/
theorem build_step_facts (cfg : BuilderConfig) (fuel : Nat)
    (ih : BFOk cfg (build cfg fuel)) (t : TargetName) (tr : List String)
    (st : BuilderState) :
    MemoExtends st (build cfg (fuel + 1) t tr st).2 ∧
    (build cfg (fuel + 1) t tr st).2.allTargetsPromise =
      st.allTargetsPromise ∧
    (∀ u, memoLookup st u ≠ none →
      List.count u (build cfg (fuel + 1) t tr st).2.invokeLog =
        List.count u st.invokeLog) ∧
    (StInv cfg st → StInv cfg (build cfg (fuel + 1) t tr st).2) := by
  simp only [build]
  split
  · exact ⟨memoExtends_refl st, rfl, fun u _ => rfl, id⟩
  · exact ⟨memoExtends_refl st, rfl, fun u _ => rfl, id⟩
  · rename_i hm
    rcases hpr : fetchBuildRuleForTarget cfg
        { st with memo := st.memo ++ [(t, MemoEntry.pending)] } t
      with ⟨ruleOpt, st2⟩
    have e01 : MemoExtends st
        { st with memo := st.memo ++ [(t, MemoEntry.pending)] } := by
      intro u v h
      exact lookupA_append_of_some _ _ _ _ h
    have pend1 : memoLookup
        { st with memo := st.memo ++ [(t, MemoEntry.pending)] } t =
        some .pending := by
      show lookupA (st.memo ++ [(t, MemoEntry.pending)]) t = some .pending
      rw [lookupA_append_of_none _ _ _ hm]
      simp [lookupA]
    have hI01 : StInv cfg st →
        StInv cfg { st with memo := st.memo ++ [(t, MemoEntry.pending)] } := by
      intro hI
      refine ⟨hI.1, ?_, ?_, ?_⟩
      · show ((st.memo ++ [(t, MemoEntry.pending)]).map Prod.fst).Nodup
        rw [List.map_append, List.nodup_append]
        refine ⟨hI.2.1, by simp, ?_⟩
        intro a ha hb
        simp only [List.map_cons, List.map_nil, List.mem_singleton] at hb
        subst hb
        exact (lookupA_eq_none_iff st.memo a).mp hm ha
      · intro u
        refine ⟨(hI.2.2.1 u).1,
          fun h1 => memoExtends_ne_none e01 u ((hI.2.2.1 u).2 h1)⟩
      · intro u r hu p hp
        have hu' : lookupA (st.memo ++ [(t, MemoEntry.pending)]) u =
            some (.done (.ok r)) := hu
        rcases lookupA_append_cases _ _ _ _ hu' with h | ⟨h1, h2⟩
        · have h3 := hI.2.2.2 u r h p hp
          rcases (isDoneOk_iff _).mp h3 with ⟨rp, hrp⟩
          rw [show memoLookup
              { st with memo := st.memo ++ [(t, MemoEntry.pending)] } p =
              some (.done (.ok rp)) from e01 p _ hrp]
          rfl
        · by_cases htu : t = u <;> simp [lookupA, htu] at h2
    have hfs := fetch_state cfg
      { st with memo := st.memo ++ [(t, MemoEntry.pending)] } t
    rw [hpr] at hfs
    obtain ⟨m12, r12, i12, a12, f12⟩ := hfs
    have e12 : MemoExtends
        { st with memo := st.memo ++ [(t, MemoEntry.pending)] } st2 := by
      intro u v h
      show lookupA st2.memo u = some v
      rw [m12]
      exact h
    have e02 : MemoExtends st st2 := memoExtends_trans e01 e12
    have pend2 : memoLookup st2 t = some .pending := e12 t _ pend1
    have a02 : st2.allTargetsPromise = st.allTargetsPromise := by
      rw [a12]
    have i02 : st2.invokeLog = st.invokeLog := by rw [i12]
    have hI02 : StInv cfg st → StInv cfg st2 := fun hI =>
      stinv_of_eq_parts cfg _ st2 m12 i12 a12 (hI01 hI)
    have hextA : ∀ ns tr0 st0, MemoExtends st0
        (buildAllWith cfg.concurrencyMode (build cfg fuel) ns tr0 st0).2 :=
      fun ns tr0 st0 =>
        (BAw_pack cfg cfg.concurrencyMode (build cfg fuel) ih ns tr0 st0).1
    have hatpA : ∀ ns tr0 st0,
        (buildAllWith cfg.concurrencyMode (build cfg fuel) ns tr0 st0).2.allTargetsPromise =
          st0.allTargetsPromise :=
      fun ns tr0 st0 =>
        (BAw_pack cfg cfg.concurrencyMode (build cfg fuel) ih ns tr0 st0).2.1
    have hcntA : ∀ ns tr0 st0 u, memoLookup st0 u ≠ none →
        List.count u
          (buildAllWith cfg.concurrencyMode (build cfg fuel) ns tr0 st0).2.invokeLog =
          List.count u st0.invokeLog :=
      fun ns tr0 st0 =>
        (BAw_pack cfg cfg.concurrencyMode (build cfg fuel) ih ns tr0 st0).2.2.1
    have hpresA : ∀ ns tr0 st0, StInv cfg st0 →
        StInv cfg
          (buildAllWith cfg.concurrencyMode (build cfg fuel) ns tr0 st0).2 :=
      fun ns tr0 st0 =>
        (BAw_pack cfg cfg.concurrencyMode (build cfg fuel) ih ns tr0 st0).2.2.2
    have hOkEA : ∀ ns tr0 st0 r st',
        buildAllWith cfg.concurrencyMode (build cfg fuel) ns tr0 st0 =
          (.ok r, st') →
        ∀ p ∈ ns, isDoneOk (memoLookup st' p) = true :=
      fun ns tr0 st0 r st' h =>
        BAw_okEntries cfg cfg.concurrencyMode (build cfg fuel) ih ns tr0
          st0 r st' h
    cases ruleOpt with
    | none =>
      dsimp only
      have hOkN : StInv cfg st →
          ∀ p ∈ prereqListOf cfg t, isDoneOk (memoLookup st2 p) = true := by
        intro hI
        have h := fetch_rule_of_atp_none cfg
          { st with memo := st.memo ++ [(t, MemoEntry.pending)] } t hI.1
        rw [hpr] at h
        intro p hp
        unfold prereqListOf at hp
        rw [← h] at hp
        cases hp
      split
      · rename_i m hmt
        exact final_upsert_facts cfg t st st2 (.ok ⟨m⟩) e02 a02
          (fun u hu => by rw [i02]) hm pend2 hI02
          (fun hI r _ p hp => hOkN hI p hp)
      · rename_i e hmt
        exact final_upsert_facts cfg t st st2
          (.err (mkBuildError
            (t ++ " does not exist and I don't know how to build it.") tr))
          e02 a02 (fun u hu => by rw [i02]) hm pend2 hI02
          (fun hI r hr => nomatch hr)
    | some rule =>
      dsimp only
      obtain ⟨eb, ab, cb, okb⟩ := BTW_basic cfg
        (buildAllWith cfg.concurrencyMode (build cfg fuel)) t rule tr st2
        hextA hatpA hcntA hOkEA
      have hIb : StInv cfg st →
          StInv cfg (buildTargetWith cfg
            (buildAllWith cfg.concurrencyMode (build cfg fuel))
            t rule tr st2).2 := by
        intro hI
        have hI2 := hI02 hI
        have hcnt0 : List.count t st2.invokeLog = 0 := by
          rw [i02]
          have h1 := (hI.2.2.1 t).1
          have h2 := (hI.2.2.1 t).2
          by_contra hc
          have h3 : 1 ≤ List.count t st.invokeLog := by omega
          exact (h2 h3) hm
        exact (BTW_pres cfg
          (buildAllWith cfg.concurrencyMode (build cfg fuel))
          t rule tr st2 hextA hatpA hcntA hpresA hOkEA hI2 pend2 hcnt0).1
      have hOk3 : StInv cfg st → ∀ r,
          (buildTargetWith cfg
            (buildAllWith cfg.concurrencyMode (build cfg fuel))
            t rule tr st2).1 = .ok r →
          ∀ p ∈ prereqListOf cfg t,
            isDoneOk (memoLookup (buildTargetWith cfg
              (buildAllWith cfg.concurrencyMode (build cfg fuel))
              t rule tr st2).2 p) = true := by
        intro hI r hr p hp
        have h := fetch_rule_of_atp_none cfg
          { st with memo := st.memo ++ [(t, MemoEntry.pending)] } t hI.1
        rw [hpr] at h
        have hpl : prereqListOf cfg t = rule.prereqs ++ cfg.globalPrereqs := by
          unfold prereqListOf
          rw [← h]
        rw [hpl] at hp
        exact okb r hr p hp
      exact final_upsert_facts cfg t st
        (buildTargetWith cfg
          (buildAllWith cfg.concurrencyMode (build cfg fuel))
          t rule tr st2).2
        (buildTargetWith cfg
          (buildAllWith cfg.concurrencyMode (build cfg fuel))
          t rule tr st2).1
        (memoExtends_trans e02 eb) (ab.trans a02)
        (fun u hu => by
          have hut : u ≠ t := fun hx => hu (hx ▸ hm)
          rw [cb u (memoExtends_ne_none e02 u hu) hut, i02])
        hm (eb t _ pend2) hIb hOk3

/-- The fuel-indexed build function enjoys all the tracked facts, at
every fuel. -/
theorem build_BFOk (cfg : BuilderConfig) :
    ∀ fuel, BFOk cfg (build cfg fuel) := by
  intro fuel
  induction fuel with
  | zero =>
    refine ⟨fun t tr st => rfl, fun t tr st => memoExtends_refl st,
      fun t tr st r h => (nomatch h), fun t tr st u _ => rfl,
      fun t tr st h => h⟩
  | succ fuel ih =>
    refine ⟨?_, ?_, ?_, ?_, ?_⟩
    · exact fun t tr st => (build_step_facts cfg fuel ih t tr st).2.1
    · exact fun t tr st => (build_step_facts cfg fuel ih t tr st).1
    · intro t tr st r h
      rcases build_memo_after cfg fuel t tr st with h1 | ⟨h1, h2⟩
      · rw [h] at h1
        exact h1
      · rw [h2] at h
        exact nomatch h
    · exact fun t tr st u hu =>
        (build_step_facts cfg fuel ih t tr st).2.2.1 u hu
    · exact fun t tr st hI =>
        (build_step_facts cfg fuel ih t tr st).2.2.2 hI

/-- A second `build` request for the same target on the same Builder
returns the outcome the first request settled with (or keeps awaiting
the very same in-flight promise): the memoized future is shared. -/
theorem build_idem (cfg : BuilderConfig) (fuel1 fuel2 : Nat)
    (t : TargetName) (tr1 tr2 : List String) (st : BuilderState) :
    (build cfg (fuel2 + 1) t tr2 (build cfg (fuel1 + 1) t tr1 st).2).1 =
      (build cfg (fuel1 + 1) t tr1 st).1 := by
  rcases build_memo_after cfg fuel1 t tr1 st with h1 | ⟨h1, h2⟩
  · rw [build_of_memo_done cfg fuel2 t tr2 _ _ h1]
  · have h3 : (build cfg (fuel1 + 1) t tr1 st).2 = st := by rw [h2]
    have h4 : (build cfg (fuel1 + 1) t tr1 st).1 = .hang := by rw [h2]
    rw [h3, h4, build_of_memo_pending cfg fuel2 t tr2 st h1]

/-- A fresh Builder satisfies the reachable-state invariant. -/
theorem stInv_init (cfg : BuilderConfig) (fs : FS) :
    StInv cfg (initState fs) := by
  refine ⟨rfl, List.nodup_nil, ?_, ?_⟩
  · intro u
    refine ⟨by simp [initState], ?_⟩
    intro h
    simp [initState] at h
  · intro u r hu
    simp [memoLookup, initState, lookupA] at hu

/-- Each public request preserves the reachable-state invariant. -/
theorem runRequest_pres (cfg : BuilderConfig) (fuel : Nat)
    (st : BuilderState) (r : Req) (hI : StInv cfg st) :
    StInv cfg (runRequest cfg fuel st r) := by
  cases r with
  | rBuild t tr => exact (build_BFOk cfg fuel).pres t tr st hI
  | rBuildAll ns tr =>
    exact (BAw_pack cfg cfg.concurrencyMode (build cfg fuel)
      (build_BFOk cfg fuel) ns tr st).2.2.2 hI

/-- Any sequence of public requests preserves the reachable-state
invariant. -/
theorem runRequests_pres (cfg : BuilderConfig) (fuel : Nat) :
    ∀ reqs st, StInv cfg st → StInv cfg (runRequests cfg fuel reqs st)
  | [], _, hI => hI
  | r :: rest, st, hI =>
    runRequests_pres cfg fuel rest _ (runRequest_pres cfg fuel st r hI)

/-- `GoodMemo` closes under transitive prerequisites: below a settled
successful target, every transitive prerequisite is settled
successfully. -/
theorem goodMemo_trans (cfg : BuilderConfig) (st : BuilderState)
    (hG : GoodMemo cfg st) (p t : TargetName)
    (h : TransPrereq cfg p t) :
    ∀ r, memoLookup st t = some (.done (.ok r)) →
      isDoneOk (memoLookup st p) = true := by
  induction h with
  | direct p t hp =>
    intro r ht
    exact hG t r ht p hp
  | step p q t hq hp ih =>
    intro r ht
    have hqok := ih r ht
    rcases (isDoneOk_iff _).mp hqok with ⟨rq, hrq⟩
    exact hG q rq hrq p hp

/-- C1: over any Builder lifetime — any sequence of `build`/`buildAll`
requests served from a fresh instance — the memo table stores at most
one build future per target, the build callable of any target is
invoked at most once, and a repeated `build` request for a target
returns the outcome of the already-stored future (every caller shares
the memoized promise). -/
theorem claim_C1 (cfg : BuilderConfig) (fuel : Nat) (reqs : List Req)
    (fs : FS) (t : TargetName) (fuel1 fuel2 : Nat)
    (tr1 tr2 : List String) :
    NodupKeys (runRequests cfg fuel reqs (initState fs)) ∧
    List.count t
      (runRequests cfg fuel reqs (initState fs)).invokeLog ≤ 1 ∧
    (build cfg (fuel2 + 1) t tr2
        (build cfg (fuel1 + 1) t tr1
          (runRequests cfg fuel reqs (initState fs))).2).1 =
      (build cfg (fuel1 + 1) t tr1
        (runRequests cfg fuel reqs (initState fs))).1 := by
  have hI := runRequests_pres cfg fuel reqs (initState fs)
    (stInv_init cfg fs)
  exact ⟨hI.2.1, (hI.2.2.1 t).1,
    build_idem cfg fuel1 fuel2 t tr1 tr2 _⟩

/-- C8 counterexample: building `t`, whose prerequisite `p` fails with
a plain (non-BuildError) error, makes `build(t)` fail with that very
error object — which carries no build trace at all, let alone one
containing `t` as tail. -/
theorem claim_C8_counterexample :
    (build cfgTP 3 ("t") [] (initState fsEmpty)).1 = .err eBoom ∧
    eBoom.tdBuildTrace = none :=
  ⟨rfl, rfl⟩

/-- C8 (amended): if any transitive prerequisite of `t` failed to
settle successfully then `build(t)` did not settle successfully, on
any Builder lifetime; the error a failing prerequisite aggregate
rejects with is propagated to `build(t)`'s caller unchanged — so a
plain error reaches the initiating request without gaining a build
trace; and the error the core itself raises for a missing, unbuildable
target is a BuildError carrying the requesting trace (the path of
target names down from the initiating request). -/
theorem claim_C8 (cfg : BuilderConfig) (fuel : Nat) (reqs : List Req)
    (fs : FS) (t p : TargetName) (r : BuildResult)
    (bAll : List TargetName → List String → BuilderState →
      BuildOutcome × BuilderState)
    (rule : BuildRule) (tr : List String) (st st2 : BuilderState)
    (e : JsError) (tt : TargetTypeName) (tm : Mtime)
    (t3 : TargetName) (fuel2 : Nat) (tr2 : List String)
    (st3 : BuilderState) (e2 : JsError) :
    (TransPrereq cfg p t →
      memoLookup (runRequests cfg fuel reqs (initState fs)) t =
        some (.done (.ok r)) →
      isDoneOk
        (memoLookup (runRequests cfg fuel reqs (initState fs)) p) =
        true) ∧
    ((lookupA st3.memo t3 = none ∧
        st3.allTargetsPromise = none ∧
        lookupA (mergedRules cfg) t3 = none ∧
        mtimeR st3.fs t3 none .posInf = .error e2) →
      (build cfg (fuel2 + 1) t3 tr2 st3).1 =
        .err (mkBuildError
          (t3 ++ " does not exist and I don't know how to build it.")
          tr2) ∧
      (mkBuildError
        (t3 ++ " does not exist and I don't know how to build it.")
        tr2).tdBuildTrace = some tr2) ∧
    (getRuleTargetType rule t (tr ++ [t]) = .ok tt →
      readTargetMtime st.fs t tt = .ok tm →
      bAll (rule.prereqs ++ cfg.globalPrereqs) (tr ++ [t]) st =
        (.err e, st2) →
      buildTargetWith cfg bAll t rule tr st = (.err e, st2)) := by
  refine ⟨?_, ?_, ?_⟩
  · intro htp hok
    have hI := runRequests_pres cfg fuel reqs (initState fs)
      (stInv_init cfg fs)
    exact goodMemo_trans cfg _ hI.2.2.2 p t htp r hok
  · intro ⟨hmemo, hatp, hrule, hmt⟩
    refine ⟨?_, rfl⟩
    simp only [build, hmemo]
    rcases hpr : fetchBuildRuleForTarget cfg
        { st3 with memo := st3.memo ++ [(t3, MemoEntry.pending)] } t3
      with ⟨ruleOpt, st4⟩
    have h := fetch_rule_of_atp_none cfg
      { st3 with memo := st3.memo ++ [(t3, MemoEntry.pending)] } t3 hatp
    rw [hpr] at h
    have h1 : ruleOpt = none := h.trans hrule
    subst h1
    have hfs := (fetch_state cfg
      { st3 with memo := st3.memo ++ [(t3, MemoEntry.pending)] }
      t3).2.2.2.2
    rw [hpr] at hfs
    dsimp only at hfs
    dsimp only
    rw [hfs, hmt]
  · intro h1 h2 h3
    simp only [buildTargetWith, h1, h2, h3]

/-- Witness for C8: on the `c`-from-`a` Builder, after building `c`
successfully the transitive prerequisite `a` is settled successfully;
the core's missing-target error for `nope` carries the requesting
trace; and a failing prerequisite aggregate's error reaches the caller
unchanged. -/
theorem claim_C8_witness :
    ("a") ∈ prereqListOf cfgCA ("c") ∧
    isDoneOk (memoLookup
      (runRequests cfgCA 3 [Req.rBuild ("c") []] (initState fsA100))
      ("a")) = true ∧
    (build cfgCA 1 ("nope") ["root", "nope"] (initState fsEmpty)).1 =
      .err (mkBuildError
        (("nope") ++ " does not exist and I don't know how to build it.")
        ["root", "nope"]) ∧
    buildTargetWith cfgCA (fun _ _ s => (.err eBoom, s)) ("c") ruleCA []
      (initState fsEmpty) = (.err eBoom, initState fsEmpty) := by
  have h := claim_C8 cfgCA 3 [Req.rBuild ("c") []] fsA100 ("c") ("a")
    ⟨.fin 50⟩ (fun _ _ s => (.err eBoom, s)) ruleCA [] (initState fsEmpty)
    (initState fsEmpty) eBoom .auto .negInf ("nope") 0 ["root", "nope"]
    (initState fsEmpty) (notFoundError ("nope"))
  refine ⟨by decide, ?_, ?_, ?_⟩
  · exact h.1 (.direct _ _ (by decide)) rfl
  · exact (h.2.1 ⟨rfl, rfl, rfl, rfl⟩).1
  · exact h.2.2 rfl rfl rfl

end TDB
